import Mathlib

/-!
Verification of the release-asset resolution and multi-strategy installation
engine of autonomix-cli, shallowly embedded from the Go sources
(pkg/binary/detector.go, pkg/binary/extractor.go, pkg/binary/installer.go,
pkg/installer/installer.go, pkg/manager, config).  Ambient process state
(runtime.GOOS, runtime.GOARCH, the PATH variable, filesystem and subprocess
outcomes) is passed explicitly as parameters or environment records.
-/

set_option autoImplicit false

namespace Autonomix

/-! ## Go string primitives

Characters are modelled as Lean `Char` and strings as `String` / `List Char`.
The helpers below mirror the semantics of Go's strings package functions used
by the sources: `strings.Contains`, `strings.HasPrefix`, `strings.HasSuffix`,
`strings.Split` (with a non-empty separator), `strings.Trim` (with a
single-character cutset), `strings.TrimSuffix`, `strings.TrimPrefix` and
`strings.ToLower` (the asset names involved are ASCII, for which
`Char.toLower` agrees with Go's `unicode.ToLower`). -/

/-- Boolean test that the first list is a prefix of the second
(Go strings.HasPrefix on the underlying characters). -/
def isPrefB : List Char → List Char → Bool
  | [], _ => true
  | _ :: _, [] => false
  | a :: as, b :: bs => a == b && isPrefB as bs

/-- Leftmost occurrence search: returns the part strictly before the first
occurrence of sep together with the part strictly after it, or none if sep
does not occur.  This is the scanning step of Go strings.Split. -/
def findSep (sep : List Char) : List Char → Option (List Char × List Char)
  | [] => if isPrefB sep [] then some ([], ([] : List Char).drop sep.length) else none
  | c :: t =>
    if isPrefB sep (c :: t) then some ([], (c :: t).drop sep.length)
    else
      match findSep sep t with
      | none => none
      | some (pre, post) => some (c :: pre, post)

/-- Boolean substring test: Go strings.Contains (sep occurs inside l). -/
def containsSub (l sep : List Char) : Bool := (findSep sep l).isSome

theorem findSep_shrink (sep : List Char) (hsep : sep ≠ []) :
    ∀ (l pre post : List Char), findSep sep l = some (pre, post) →
      post.length < l.length := by
  intro l
  induction l with
  | nil =>
    intro pre post h
    simp only [findSep] at h
    cases sep with
    | nil => exact absurd rfl hsep
    | cons a as => simp [isPrefB] at h
  | cons c t ih =>
    intro pre post h
    rw [findSep] at h
    split at h
    · cases h with
      | refl =>
        cases sep with
        | nil => exact absurd rfl hsep
        | cons a as =>
          simp only [List.length_drop, List.length_cons]
          omega
    · split at h
      · exact absurd h (by simp)
      · rename_i pre1 post1 hf
        cases h with
        | refl =>
          have := ih pre1 post hf
          simp only [List.length_cons]
          omega

/-- Fuel-driven splitting loop; the fuel is only a structural-recursion
device and never runs out when it starts above the length of the list
(each found separator occurrence strictly shrinks the remainder). -/
def splitGoAux (sep : List Char) : Nat → List Char → List (List Char)
  | 0, l => [l]
  | fuel + 1, l =>
    match findSep sep l with
    | none => [l]
    | some (pre, post) => pre :: splitGoAux sep fuel post

/-- Go strings.Split for a non-empty separator: the parts of l between
consecutive non-overlapping occurrences of sep, scanned left to right.
(Go's behaviour for an empty separator differs; every separator used by the
sources — "github.com/", "/", ":", "-" — is non-empty.) -/
def splitGo (sep : List Char) (l : List Char) : List (List Char) :=
  splitGoAux sep (l.length + 1) l

theorem splitGoAux_fuel (sep : List Char) (hsep : sep ≠ []) :
    ∀ f1 f2 l, l.length < f1 → l.length < f2 →
      splitGoAux sep f1 l = splitGoAux sep f2 l := by
  intro f1
  induction f1 with
  | zero => intro f2 l h1; omega
  | succ f ih =>
    intro f2 l h1 h2
    cases f2 with
    | zero => omega
    | succ g =>
      simp only [splitGoAux]
      cases hf : findSep sep l with
      | none => rfl
      | some pr =>
        obtain ⟨pre, post⟩ := pr
        have hlt := findSep_shrink sep hsep l pre post hf
        simp only []
        rw [ih g post (by omega) (by omega)]

/-- The defining equation of splitGo, independent of the fuel device. -/
theorem splitGo_eq (sep : List Char) (hsep : sep ≠ []) (l : List Char) :
    splitGo sep l =
      match findSep sep l with
      | none => [l]
      | some (pre, post) => pre :: splitGo sep post := by
  show splitGoAux sep (l.length + 1) l = _
  simp only [splitGoAux]
  cases hf : findSep sep l with
  | none => rfl
  | some pr =>
    obtain ⟨pre, post⟩ := pr
    have hlt := findSep_shrink sep hsep l pre post hf
    simp only []
    rw [splitGoAux_fuel sep hsep l.length (post.length + 1) post (by omega) (by omega)]
    rfl

/-- Drop the leading characters equal to ch (half of Go strings.Trim with a
one-character cutset). -/
def ltrim (ch : Char) : List Char → List Char
  | [] => []
  | c :: t => if c == ch then ltrim ch t else c :: t

/-- Drop the trailing characters equal to ch. -/
def rtrim (ch : Char) (l : List Char) : List Char :=
  (ltrim ch l.reverse).reverse

/-- Go strings.Trim(s, cutset) for the one-character cutset used by the
sources (the "/" cutset of cleanRepoURL). -/
def trimBoth (ch : Char) (l : List Char) : List Char :=
  rtrim ch (ltrim ch l)

/-- Go strings.ToLower (ASCII-faithful). -/
def lowerStr (s : String) : String := String.mk (s.data.map Char.toLower)

/-- Go strings.Contains. -/
def strContains (s sub : String) : Bool := containsSub s.data sub.data

/-- Go strings.HasPrefix. -/
def strStarts (s pre : String) : Bool := isPrefB pre.data s.data

/-- Go strings.HasSuffix. -/
def strEnds (s suf : String) : Bool := isPrefB suf.data.reverse s.data.reverse

/-- Go strings.TrimSuffix: remove suf once if s ends with it. -/
def strTrimSuffix (s suf : String) : String :=
  if strEnds s suf then String.mk (s.data.take (s.data.length - suf.data.length)) else s

/-- Go strings.TrimPrefix: remove pre once if s starts with it. -/
def strTrimPrefix (s pre : String) : String :=
  if strStarts s pre then String.mk (s.data.drop pre.data.length) else s

/-- Go strings.Split lifted to String values. -/
def strSplit (s : String) (sep : String) : List String :=
  (splitGo sep.data s.data).map String.mk

/-! ## pkg/binary/detector.go -/

/-- InstallMethod constants of pkg/binary/detector.go. -/
inductive InstallMethod where
  | auto
  | systemPath
  | userPath
  | homebrew
  | autonomixPath
deriving DecidableEq, Repr

/-- github.Asset: the fields of a release asset used by the engine. -/
structure Asset where
  name : String
  browserDownloadURL : String
  size : Nat
deriving DecidableEq, Repr

/-- BinaryAsset of pkg/binary/detector.go. -/
structure BinaryAsset where
  asset : Asset
  binaryName : String
  isArchiveB : Bool
  priority : Nat
deriving DecidableEq, Repr

/-- IsBinaryAsset (detector.go): checks if asset is an executable binary. -/
def IsBinaryAsset (asset : Asset) : Bool :=
  let name := lowerStr asset.name
  if strContains name "checksum" || strContains name "sha256" ||
      strContains name "sha512" || strEnds name ".sig" || strEnds name ".asc" then
    false
  else if strStarts name "source" || strContains name "src" then
    false
  else
    !strEnds name ".deb" && !strEnds name ".rpm" && !strEnds name ".apk" &&
      !strEnds name ".dmg" && !strEnds name ".pkg"

/-- GetBinaryName (detector.go): strip archive suffixes, then take the part
of the name before the first hyphen. -/
def GetBinaryName (asset : Asset) : String :=
  let name := asset.name
  let name := strTrimSuffix name ".tar.gz"
  let name := strTrimSuffix name ".tgz"
  let name := strTrimSuffix name ".zip"
  let name := strTrimSuffix name ".gz"
  match strSplit name "-" with
  | p :: _ => p
  | [] => name

/-- MatchesPlatform (detector.go), with runtime.GOOS and runtime.GOARCH
passed explicitly. -/
def MatchesPlatform (goos goarch : String) (assetName : String) : Bool :=
  let name := lowerStr assetName
  let osMatch :=
    if goos == "darwin" then
      strContains name "darwin" || strContains name "macos" || strContains name "osx"
    else if goos == "linux" then
      strContains name "linux"
    else false
  if !osMatch then false
  else
    let archMatch :=
      if goarch == "amd64" then
        strContains name "amd64" || strContains name "x86_64" || strContains name "x64"
      else if goarch == "arm64" then
        strContains name "arm64" || strContains name "aarch64"
      else false
    archMatch

/-- isArchive (detector.go). -/
def isArchiveName (name : String) : Bool :=
  let lower := lowerStr name
  strEnds lower ".tar.gz" || strEnds lower ".tgz" ||
    strEnds lower ".zip" || strEnds lower ".gz"

/-- getPriority (detector.go): standalone binary 3, tarball 2, zip 1, else 0. -/
def getPriority (name : String) : Nat :=
  let lower := lowerStr name
  if !isArchiveName name then 3
  else if strEnds lower ".tar.gz" || strEnds lower ".tgz" then 2
  else if strEnds lower ".zip" then 1
  else 0

/-- DetectBinaryAssets (detector.go): the platform-compatible binary
candidates of a release, in release-asset order. -/
def DetectBinaryAssets (goos goarch : String) (assets : List Asset) : List BinaryAsset :=
  match assets with
  | [] => []
  | asset :: rest =>
    if !IsBinaryAsset asset then DetectBinaryAssets goos goarch rest
    else if !MatchesPlatform goos goarch asset.name then DetectBinaryAssets goos goarch rest
    else
      { asset := asset
        binaryName := GetBinaryName asset
        isArchiveB := isArchiveName asset.name
        priority := getPriority asset.name } :: DetectBinaryAssets goos goarch rest

/-- Selection loop of tryBinaryInstall (pkg/installer/installer.go):
selected starts as the first candidate and is replaced whenever a strictly
higher priority is seen, so the first candidate attaining the maximal
priority wins. -/
def selectStep (sel b : BinaryAsset) : BinaryAsset :=
  if b.priority > sel.priority then b else sel

/-- The whole selection pass over the candidate list (the Go loop also
compares binaries with the initial element binaries0, a no-op). -/
def selectBinary (first : BinaryAsset) (all : List BinaryAsset) : BinaryAsset :=
  all.foldl selectStep first

instance exceptDecEq {ε α : Type} [DecidableEq ε] [DecidableEq α] :
    DecidableEq (Except ε α) := fun a b =>
  match a, b with
  | .error e1, .error e2 =>
    if h : e1 = e2 then isTrue (by rw [h]) else isFalse (by intro hc; cases hc; exact h rfl)
  | .error _, .ok _ => isFalse (by intro hc; cases hc)
  | .ok _, .error _ => isFalse (by intro hc; cases hc)
  | .ok v1, .ok v2 =>
    if h : v1 = v2 then isTrue (by rw [h]) else isFalse (by intro hc; cases hc; exact h rfl)

/-! ## pkg/binary/extractor.go

The archives themselves are external input: a downloaded .tar.gz or .zip is
modelled as the list of its entries in archive order, each carrying the
fields the scan inspects (name, regular-file/directory flag, mode bits).
The copy-out I/O is abstracted: a successful scan returns the destination
path (tmpDir/expectedName) together with the entry whose bytes are copied
there. -/

/-- Entry of a tar archive as seen by extractFromTarGz: isReg models
header.Typeflag == tar.TypeReg, mode the permission bits of
header.FileInfo().Mode(). -/
structure TarEntry where
  name : String
  isReg : Bool
  mode : Nat
deriving DecidableEq, Repr

/-- Entry of a zip archive as seen by extractFromZip: isDir models
f.FileInfo().IsDir(), mode the bits of f.Mode(). -/
structure ZipEntry where
  name : String
  isDir : Bool
  mode : Nat
deriving DecidableEq, Repr

/-- isExecutable (extractor.go): mode&0111 != 0. -/
def isExecutable (mode : Nat) : Bool := mode &&& 0o111 != 0

/-- Go path/filepath.Base: empty path gives ".", trailing slashes are
removed, the component after the last slash remains, an all-slash path
gives "/". -/
def baseName (path : String) : String :=
  if path.data = [] then "."
  else
    let l := rtrim '/' path.data
    if l = [] then "/"
    else String.mk (l.reverse.takeWhile (fun c => !(c == '/'))).reverse

/-- extractFromTarGz (extractor.go): scan the entries in archive order,
skip non-regular entries and entries without an executable bit, and copy
out the first whose base name equals expectedName or begins with it. -/
def extractFromTarGz (entries : List TarEntry) (expectedName tmpDir : String) :
    Except String (String × TarEntry) :=
  match entries with
  | [] => .error ("binary " ++ expectedName ++ " not found in release archive")
  | h :: rest =>
    if !h.isReg then extractFromTarGz rest expectedName tmpDir
    else if !isExecutable h.mode then extractFromTarGz rest expectedName tmpDir
    else
      let bn := baseName h.name
      if bn == expectedName || strStarts bn expectedName then
        .ok (tmpDir ++ "/" ++ expectedName, h)
      else extractFromTarGz rest expectedName tmpDir

/-- extractFromZip (extractor.go): same matching rule over the zip
directory entries in archive order, skipping directories. -/
def extractFromZip (entries : List ZipEntry) (expectedName tmpDir : String) :
    Except String (String × ZipEntry) :=
  match entries with
  | [] => .error ("binary " ++ expectedName ++ " not found in release archive")
  | f :: rest =>
    if f.isDir then extractFromZip rest expectedName tmpDir
    else if !isExecutable f.mode then extractFromZip rest expectedName tmpDir
    else
      let bn := baseName f.name
      if bn == expectedName || strStarts bn expectedName then
        .ok (tmpDir ++ "/" ++ expectedName, f)
      else extractFromZip rest expectedName tmpDir

/-! ## pkg/binary/installer.go -/

/-- The ambient state read by the install path planner: os.UserHomeDir(),
the PATH variable, and whether os.Stat on HOME/.local/bin succeeds. -/
structure FsEnv where
  home : String
  pathEnv : String
  localBinExists : Bool
deriving DecidableEq, Repr

/-- isInPath (binary/installer.go): dir is an exact colon-separated
segment of PATH. -/
def isInPath (fs : FsEnv) (dir : String) : Bool :=
  (splitGo [':'] fs.pathEnv.data).contains dir.data

/-- determineInstallPath (binary/installer.go): target path, resolved
method and whether sudo is required. -/
def determineInstallPath (fs : FsEnv) (appName : String) (method : InstallMethod) :
    String × InstallMethod × Bool :=
  let home := fs.home
  if method = .auto then
    let localBin := home ++ "/.local/bin"
    if fs.localBinExists && isInPath fs localBin then
      (localBin ++ "/" ++ appName, .userPath, false)
    else
      ("/usr/local/bin" ++ "/" ++ appName, .systemPath, true)
  else
    match method with
    | .systemPath => ("/usr/local/bin" ++ "/" ++ appName, .systemPath, true)
    | .userPath => (home ++ "/.local/bin" ++ "/" ++ appName, .userPath, false)
    | .autonomixPath => (home ++ "/.autonomix/bin" ++ "/" ++ appName, .autonomixPath, false)
    | _ => (home ++ "/.autonomix/bin" ++ "/" ++ appName, .autonomixPath, false)

/-! ## pkg/packages and pkg/installer/installer.go -/

/-- Package-format tags of pkg/packages. -/
inductive PkgType where
  | deb
  | rpm
  | pacman
  | flatpak
  | snap
  | appimage
  | unknown
deriving DecidableEq, Repr

/-- String rendering of a packages.Type value, used in error messages. -/
def typeName : PkgType → String
  | .deb => "deb"
  | .rpm => "rpm"
  | .pacman => "pacman"
  | .flatpak => "flatpak"
  | .snap => "snap"
  | .appimage => "appimage"
  | .unknown => "unknown"

/-- Modelled from the spec: packages.DetectType is not among the provided
sources (only its callers are).  Per spec section 4.2 it is a pure
suffix test on the lower-cased name: .deb gives native-deb, .rpm native-rpm,
the Arch package suffix (.pkg.tar.zst) native-pacman, .flatpak flatpak,
.snap snap, .AppImage appimage, anything else unknown. -/
def DetectType (assetName : String) : PkgType :=
  let name := lowerStr assetName
  if strEnds name ".deb" then .deb
  else if strEnds name ".rpm" then .rpm
  else if strEnds name ".pkg.tar.zst" then .pacman
  else if strEnds name ".flatpak" then .flatpak
  else if strEnds name ".snap" then .snap
  else if strEnds name ".appimage" then .appimage
  else .unknown

/-- Architecture keyword list built by GetCompatibleAssets
(installer/installer.go): the Go arch name, its common aliases, then the
universal tokens. -/
def archKeywords (goarch : String) : List String :=
  (goarch ::
    (if goarch == "amd64" then ["x86_64", "x64"]
     else if goarch == "arm64" then ["aarch64", "armv8"]
     else [])) ++ ["all", "noarch", "any"]

/-- The arch test of GetCompatibleAssets: some keyword occurs in the
lower-cased asset name. -/
def matchedArch (goarch : String) (name : String) : Bool :=
  (archKeywords goarch).any (fun kw => strContains (lowerStr name) kw)

/-- The compatible-asset filter of GetCompatibleAssets: preferred package
type and a matching architecture keyword. -/
def compatibleAssets (release : List Asset) (sysType : PkgType) (goarch : String) :
    List Asset :=
  release.filter (fun a =>
    if DetectType a.name = sysType then matchedArch goarch a.name else false)

/-- The recognized package types seen in the release (the availableTypes
map of GetCompatibleAssets).  Go fills a map, whose iteration order is
unspecified; the model keeps first-seen order and theorems only use
membership. -/
def availableTypes (release : List Asset) : List PkgType :=
  release.foldl
    (fun acc a =>
      let t := DetectType a.name
      if t = .unknown then acc else if t ∈ acc then acc else acc ++ [t])
    []

/-- The error values of GetCompatibleAssets, kept structured; message
renders them as the Go fmt.Errorf calls do. -/
inductive CompatErr where
  | noPkgManager
  | noCompatibleArch (sysType : PkgType) (goarch : String) (available : List PkgType)
deriving DecidableEq, Repr

/-- Go strings.Join with separator ", ". -/
def joinComma : List String → String
  | [] => ""
  | [x] => x
  | x :: rest => x ++ ", " ++ joinComma rest

/-- Rendering of CompatErr following the fmt.Errorf format strings of
GetCompatibleAssets. -/
def CompatErr.message : CompatErr → String
  | .noPkgManager => "could not detect system package manager"
  | .noCompatibleArch sysType goarch available =>
      "no " ++ typeName sysType ++ " packages found for " ++ goarch ++
        ". Available types: " ++ joinComma (available.map typeName)

/-- GetCompatibleAssets (installer/installer.go) with the ambient system
probes (system.GetSystemPreferredType, runtime.GOARCH) passed explicitly.
The dead loop at lines 86-96 of the source has no effect and is omitted. -/
def GetCompatibleAssets (release : List Asset) (sysType : PkgType) (goarch : String) :
    Except CompatErr (List Asset) :=
  if sysType = .unknown then .error .noPkgManager
  else
    let compatible := compatibleAssets release sysType goarch
    let available := availableTypes release
    if compatible.isEmpty && !available.isEmpty then
      .error (.noCompatibleArch sysType goarch available)
    else .ok compatible

/-! ## Orchestrator model

installer.InstallUpdate / tryPackageInstall / tryHomebrewInstall /
tryBinaryInstall / installBinaryDirect (pkg/installer/installer.go) and the
manager layer InstallApp / installWithMethod / tryPackageInstall /
tryHomebrewInstall / tryBinaryInstall (pkg/manager, part_002), as a pure
state-passing semantics.  External effects (subprocess runs, downloads,
extraction of the downloaded bytes, filesystem writes) are oracles carried
by an environment record; every strategy function returns its Go result
together with the list of strategy attempts it performed, in order. -/

/-- One strategy attempt: entering a native-package install
(tryPackageInstall at either layer), running a Homebrew search/install
(tryHomebrewInstall past its IsInstalled guard at the manager layer, or at
the installer layer), or placing a binary (binary.InstallBinary). -/
inductive Event where
  | package
  | homebrew
  | binaryPlace
deriving DecidableEq, Repr

/-- The fields of installer.InstallResult used by callers (Success and
Message are set but never read by any modelled caller). -/
structure InstallResultR where
  method : String
  version : String
  path : String
deriving DecidableEq, Repr

/-- Environment of one install attempt: the ambient platform, the release,
and the outcome of every external effect, including the error text the
failing effect would produce. -/
structure Env where
  goos : String
  goarch : String
  sysType : PkgType
  release : List Asset
  relTag : String
  tmpDir : String
  fs : FsEnv
  brewOnPath : Bool
  pkgRunOk : Bool
  pkgRunErr : String
  brewSearchOk : Bool
  brewSearchErr : String
  brewInstallOk : Bool
  brewInstallErr : String
  brewVersionOk : Bool
  brewVersion : String
  binDownloadOk : Bool
  binDownloadErr : String
  extractOutcome : Except String String
  placeOk : Bool
  placeErr : String
deriving Repr

/-- installer.tryPackageInstall: DownloadUpdate (GetCompatibleAssets, pick
the first asset, download) then GetInstallCmd and cmd.Run; pkgRunOk
collapses the download, command-construction and run outcomes, pkgRunErr
their error text. -/
def installerTryPackage (env : Env) : Except String InstallResultR × List Event :=
  match GetCompatibleAssets env.release env.sysType env.goarch with
  | .error e => (.error e.message, [.package])
  | .ok [] => (.error "no compatible assets found", [.package])
  | .ok (a :: _) =>
    if !env.pkgRunOk then (.error env.pkgRunErr, [.package])
    else
      (.ok { method := "package", version := env.relTag,
             path := env.tmpDir ++ "/" ++ a.name }, [.package])

/-- installer.tryHomebrewInstall: homebrew.SearchFormula then
homebrew.InstallOfficial; returns an empty path on success. -/
def installerTryHomebrew (env : Env) : Except String InstallResultR × List Event :=
  if !env.brewSearchOk then (.error env.brewSearchErr, [.homebrew])
  else if !env.brewInstallOk then
    (.error ("brew install failed: " ++ env.brewInstallErr), [.homebrew])
  else (.ok { method := "homebrew", version := env.relTag, path := "" }, [.homebrew])

/-- installer.installBinaryDirect via binary.InstallBinary: plan the path,
then write with or without sudo. -/
def installBinaryDirectM (env : Env) (appName : String) (method : InstallMethod) :
    Except String InstallResultR × List Event :=
  let planned := determineInstallPath env.fs appName method
  if !env.placeOk then
    (.error (if planned.2.2 then "sudo install failed: " ++ env.placeErr else env.placeErr),
     [.binaryPlace])
  else (.ok { method := "binary", version := "", path := planned.1 }, [.binaryPlace])

/-- installer.tryBinaryInstall: detect candidates, select by priority,
download, extract, on macOS with Homebrew present try Homebrew first, then
place the binary. -/
def installerTryBinary (env : Env) (method : InstallMethod) :
    Except String InstallResultR × List Event :=
  match DetectBinaryAssets env.goos env.goarch env.release with
  | [] => (.error "no binary assets found", [])
  | b0 :: rest =>
    let selected := selectBinary b0 (b0 :: rest)
    if !env.binDownloadOk then
      (.error ("failed to download: " ++ env.binDownloadErr), [])
    else
      match env.extractOutcome with
      | .error e => (.error e, [])
      | .ok _ =>
        if env.goos == "darwin" && env.brewOnPath then
          match installerTryHomebrew env with
          | (.ok r, evts) => (.ok r, evts)
          | (.error _, evts) =>
            let placed := installBinaryDirectM env selected.binaryName method
            (placed.1, evts ++ placed.2)
        else installBinaryDirectM env selected.binaryName method

/-- installer.InstallUpdate: unless ForceMethod is set with a non-Auto
method, try the package strategy first; its error is discarded and the
binary path is taken. -/
def installerInstallUpdate (env : Env) (method : InstallMethod) (forceMethod : Bool) :
    Except String InstallResultR × List Event :=
  if !forceMethod || method == .auto then
    match installerTryPackage env with
    | (.ok r, evts) => (.ok r, evts)
    | (.error _, evts) =>
      let b := installerTryBinary env method
      (b.1, evts ++ b.2)
  else installerTryBinary env method

/-- The outcome fields of a config.App record written by the manager
orchestrator. -/
structure AppState where
  name : String
  version : String
  installMethod : String
  binaryPath : String
  installStatus : String
  installError : String
deriving DecidableEq, Repr

/-- manager.tryPackageInstall: require compatible assets, delegate to
installer.InstallUpdate with Method Auto (ForceMethod unset), and on
success record version and the package install method. -/
def managerTryPackage (env : Env) (app : AppState) :
    AppState × Except String Unit × List Event :=
  match GetCompatibleAssets env.release env.sysType env.goarch with
  | .error _ => (app, .error "no compatible assets", [.package])
  | .ok assets =>
    if assets.isEmpty then (app, .error "no compatible assets", [.package])
    else
      match installerInstallUpdate env .auto false with
      | (.error e, evts) => (app, .error e, .package :: evts)
      | (.ok _, evts) =>
        ({ app with version := strTrimPrefix env.relTag "v",
                    installMethod := "package" }, .ok (), .package :: evts)

/-- manager.tryHomebrewInstall: fail unless Homebrew is installed (which
itself requires macOS), search and install the formula, take the Homebrew
version when readable, and record the homebrew install method. -/
def managerTryHomebrew (env : Env) (app : AppState) :
    AppState × Except String Unit × List Event :=
  if !(env.goos == "darwin" && env.brewOnPath) then
    (app, .error "homebrew not installed", [])
  else if !env.brewSearchOk then (app, .error env.brewSearchErr, [.homebrew])
  else if !env.brewInstallOk then
    (app, .error ("brew install failed: " ++ env.brewInstallErr), [.homebrew])
  else
    let app1 := if env.brewVersionOk then { app with version := env.brewVersion } else app
    ({ app1 with installMethod := "homebrew" }, .ok (), [.homebrew])

/-- manager.tryBinaryInstall: delegate to installer.InstallUpdate with the
requested method but ForceMethod unset, and on success record version, the
returned path and the binary install method. -/
def managerTryBinary (env : Env) (app : AppState) (method : InstallMethod) :
    AppState × Except String Unit × List Event :=
  match installerInstallUpdate env method false with
  | (.error e, evts) => (app, .error e, evts)
  | (.ok r, evts) =>
    ({ app with version := strTrimPrefix env.relTag "v",
                binaryPath := r.path,
                installMethod := "binary" }, .ok (), evts)

/-- manager.installWithMethod: Homebrew request runs only the Homebrew
helper, any other explicit request runs the binary helper; both record the
install status and, on failure, the error text. -/
def managerInstallWithMethod (env : Env) (app : AppState) (method : InstallMethod) :
    AppState × Except String Unit × List Event :=
  if method = .homebrew then
    match managerTryHomebrew env app with
    | (app1, .error e, evts) =>
      ({ app1 with installStatus := "failed", installError := e }, .error e, evts)
    | (app1, .ok _, evts) => ({ app1 with installStatus := "installed" }, .ok (), evts)
  else
    match managerTryBinary env app method with
    | (app1, .error e, evts) =>
      ({ app1 with installStatus := "failed", installError := e }, .error e, evts)
    | (app1, .ok _, evts) => ({ app1 with installStatus := "installed" }, .ok (), evts)

/-- manager.InstallApp: a non-Auto method goes through installWithMethod;
Auto tries package, then (on macOS) Homebrew, then binary, recording the
final status and, on overall failure, the last error. -/
def managerInstallApp (env : Env) (app : AppState) (method : InstallMethod) :
    AppState × Except String Unit × List Event :=
  if method ≠ .auto then managerInstallWithMethod env app method
  else
    let binStep := fun (evtsSoFar : List Event) =>
      match managerTryBinary env app .auto with
      | (app3, .error e, evts3) =>
        ({ app3 with installStatus := "failed", installError := e }, .error e,
         evtsSoFar ++ evts3)
      | (app3, .ok _, evts3) =>
        ({ app3 with installStatus := "installed" }, (.ok () : Except String Unit),
         evtsSoFar ++ evts3)
    match managerTryPackage env app with
    | (app1, .ok _, evts) => ({ app1 with installStatus := "installed" }, .ok (), evts)
    | (_, .error _, evts1) =>
      if env.goos == "darwin" then
        match managerTryHomebrew env app with
        | (app2, .ok _, evts2) =>
          ({ app2 with installStatus := "installed" }, .ok (), evts1 ++ evts2)
        | (_, .error _, evts2) => binStep (evts1 ++ evts2)
      else binStep evts1

/-! ## manager.cleanRepoURL (part_002) -/

/-- cleanRepoURL: when the URL contains "github.com/" and splits into
exactly two parts around it, and the slash-trimmed tail has at least two
slash-separated components, rebuild the canonical
https://github.com/owner/repo form; otherwise return the URL unchanged. -/
def cleanRepoURL (url : String) : String :=
  if strContains url "github.com/" then
    match splitGo ("github.com/").data url.data with
    | [_, p1] =>
      match splitGo ['/'] (trimBoth '/' p1) with
      | a :: b :: _ => String.mk (("https://github.com/").data ++ a ++ '/' :: b)
      | _ => url
    | _ => url
  else url

/-! ## Claim C1: MatchesPlatform -/

/-- OS keyword vocabulary of the claim (and of the code). -/
def specOsKeywords (goos : String) : List String :=
  if goos == "darwin" then ["darwin", "macos", "osx"]
  else if goos == "linux" then ["linux"]
  else []

/-- Architecture keyword vocabulary as the claim states it, armv8
included. -/
def claimArchKeywords (goarch : String) : List String :=
  if goarch == "amd64" then ["amd64", "x86_64", "x64"]
  else if goarch == "arm64" then ["arm64", "aarch64", "armv8"]
  else []

/-- MatchesPlatform as claim C1 states it: an OS keyword and either an
architecture keyword or a universal token. -/
def claimMatchesPlatform (goos goarch assetName : String) : Bool :=
  (specOsKeywords goos).any (fun kw => strContains (lowerStr assetName) kw) &&
    ((claimArchKeywords goarch).any (fun kw => strContains (lowerStr assetName) kw) ||
      (["all", "noarch", "any"].any (fun kw => strContains (lowerStr assetName) kw)))

/-- Architecture keyword vocabulary the code actually uses in
MatchesPlatform: no armv8 and no universal tokens. -/
def codeArchKeywords (goarch : String) : List String :=
  if goarch == "amd64" then ["amd64", "x86_64", "x64"]
  else if goarch == "arm64" then ["arm64", "aarch64"]
  else []

/-- C1, counterexample: on linux/amd64 the asset name app-linux-noarch
satisfies the claimed predicate (OS keyword linux plus universal token
noarch) but MatchesPlatform rejects it — the universal tokens are honored
by GetCompatibleAssets, not by MatchesPlatform. -/
theorem matchesPlatform_claim_false :
    claimMatchesPlatform "linux" "amd64" "app-linux-noarch" = true ∧
      MatchesPlatform "linux" "amd64" "app-linux-noarch" = false := by
  constructor <;> decide

theorem bool_guard_and (a b : Bool) : (if (!a) = true then false else b) = (a && b) := by
  cases a <;> simp

/-- C1, amended: MatchesPlatform is true iff the lower-cased name contains
an OS keyword for the running OS and an architecture keyword for the
running architecture, where the architecture keywords are amd64/x86_64/x64
on amd64 and arm64/aarch64 on arm64 — armv8 and the universal tokens
all/noarch/any are not recognized; any other OS or architecture matches
nothing. -/
theorem matchesPlatform_amended (goos goarch assetName : String) :
    MatchesPlatform goos goarch assetName =
      ((specOsKeywords goos).any (fun kw => strContains (lowerStr assetName) kw) &&
        (codeArchKeywords goarch).any (fun kw => strContains (lowerStr assetName) kw)) := by
  unfold MatchesPlatform specOsKeywords codeArchKeywords
  rw [bool_guard_and]
  cases hD : (goos == "darwin") <;> cases hL : (goos == "linux") <;>
    cases hA : (goarch == "amd64") <;> cases hR : (goarch == "arm64") <;>
      simp [hD, hL, hA, hR, List.any_cons, List.any_nil, Bool.or_assoc]

/-! ## Claim C7: IsBinaryAsset -/

/-- The native-package suffix set claim C7 asserts IsBinaryAsset excludes:
deb, rpm, the Arch package suffix, flatpak, snap and AppImage. -/
def claimNativeSuffixes : List String :=
  [".deb", ".rpm", ".pkg.tar.zst", ".flatpak", ".snap", ".appimage"]

/-- IsBinaryAsset as claim C7 states it. -/
def claimIsBinaryAsset (asset : Asset) : Bool :=
  let name := lowerStr asset.name
  !((["checksum", "sha256", "sha512"].any (fun kw => strContains name kw)) ||
    ([".sig", ".asc"].any (fun suf => strEnds name suf)) ||
    (strStarts name "source" || strContains name "src") ||
    (claimNativeSuffixes.any (fun suf => strEnds name suf)))

/-- C7, counterexample: an AppImage asset carries a native-package suffix,
so the claim demands false, but IsBinaryAsset only excludes the suffixes
.deb/.rpm/.apk/.dmg/.pkg and accepts it. -/
theorem isBinaryAsset_claim_false :
    IsBinaryAsset ⟨"app-linux-x86_64.AppImage", "", 0⟩ = true ∧
      claimIsBinaryAsset ⟨"app-linux-x86_64.AppImage", "", 0⟩ = false := by
  constructor <;> decide

/-- The exclusion suffix set the code actually uses. -/
def codeExcludedSuffixes : List String := [".deb", ".rpm", ".apk", ".dmg", ".pkg"]

/-- C7, amended: IsBinaryAsset returns false exactly for names (lower-
cased) containing checksum, sha256 or sha512, ending in .sig or .asc,
beginning with source or containing src, or ending in one of
.deb/.rpm/.apk/.dmg/.pkg; flatpak, snap and AppImage assets are not
excluded. -/
theorem isBinaryAsset_amended (asset : Asset) :
    IsBinaryAsset asset =
      !((["checksum", "sha256", "sha512"].any
          (fun kw => strContains (lowerStr asset.name) kw)) ||
        ([".sig", ".asc"].any (fun suf => strEnds (lowerStr asset.name) suf)) ||
        (strStarts (lowerStr asset.name) "source" ||
          strContains (lowerStr asset.name) "src") ||
        (codeExcludedSuffixes.any (fun suf => strEnds (lowerStr asset.name) suf))) := by
  unfold IsBinaryAsset codeExcludedSuffixes
  cases h1 : strContains (lowerStr asset.name) "checksum" <;>
    cases h2 : strContains (lowerStr asset.name) "sha256" <;>
      cases h3 : strContains (lowerStr asset.name) "sha512" <;>
        cases h4 : strEnds (lowerStr asset.name) ".sig" <;>
          cases h5 : strEnds (lowerStr asset.name) ".asc" <;>
            cases h6 : strStarts (lowerStr asset.name) "source" <;>
              cases h7 : strContains (lowerStr asset.name) "src" <;>
                simp [h1, h2, h3, h4, h5, h6, h7, List.any_cons, List.any_nil,
                  Bool.and_assoc]

/-! ## Claim C5: install path planning -/

/-- C5: with Auto requested, the planner yields HOME/.local/bin/appName,
resolved UserPath, no elevation, exactly when that directory exists (the
os.Stat probe succeeds) and is an exact colon-separated segment of PATH;
otherwise /usr/local/bin/appName, SystemPath, elevation required.  The
explicit methods SystemPath, UserPath and AutonomixPath yield their fixed
locations with elevation only for SystemPath. -/
theorem planInstallPath_spec (fs : FsEnv) (appName : String) :
    (determineInstallPath fs appName .auto =
        (fs.home ++ "/.local/bin" ++ "/" ++ appName, .userPath, false) ↔
      (fs.localBinExists = true ∧
        (fs.home ++ "/.local/bin").data ∈ splitGo [':'] fs.pathEnv.data)) ∧
    (determineInstallPath fs appName .auto =
        ("/usr/local/bin" ++ "/" ++ appName, .systemPath, true) ↔
      ¬(fs.localBinExists = true ∧
        (fs.home ++ "/.local/bin").data ∈ splitGo [':'] fs.pathEnv.data)) ∧
    determineInstallPath fs appName .systemPath =
      ("/usr/local/bin" ++ "/" ++ appName, .systemPath, true) ∧
    determineInstallPath fs appName .userPath =
      (fs.home ++ "/.local/bin" ++ "/" ++ appName, .userPath, false) ∧
    determineInstallPath fs appName .autonomixPath =
      (fs.home ++ "/.autonomix/bin" ++ "/" ++ appName, .autonomixPath, false) := by
  have hmem : isInPath fs (fs.home ++ "/.local/bin") = true ↔
      (fs.home ++ "/.local/bin").data ∈ splitGo [':'] fs.pathEnv.data := by
    unfold isInPath
    exact List.elem_iff
  cases hb : (fs.localBinExists && isInPath fs (fs.home ++ "/.local/bin")) with
  | true =>
    have hsplit := Bool.and_eq_true_iff.mp hb
    have hprop : fs.localBinExists = true ∧
        (fs.home ++ "/.local/bin").data ∈ splitGo [':'] fs.pathEnv.data :=
      ⟨hsplit.1, hmem.mp hsplit.2⟩
    refine ⟨iff_of_true (by simp [determineInstallPath, hb]) hprop, ?_,
      by simp [determineInstallPath], by simp [determineInstallPath],
      by simp [determineInstallPath]⟩
    apply iff_of_false
    · intro h
      rw [show determineInstallPath fs appName .auto =
            (fs.home ++ "/.local/bin" ++ "/" ++ appName, .userPath, false) from
          by simp [determineInstallPath, hb]] at h
      simp at h
    · intro hn; exact hn hprop
  | false =>
    have hnprop : ¬(fs.localBinExists = true ∧
        (fs.home ++ "/.local/bin").data ∈ splitGo [':'] fs.pathEnv.data) := by
      rintro ⟨h1, h2⟩
      have hT : (fs.localBinExists && isInPath fs (fs.home ++ "/.local/bin")) = true :=
        Bool.and_eq_true_iff.mpr ⟨h1, hmem.mpr h2⟩
      rw [hb] at hT
      exact Bool.false_ne_true hT
    refine ⟨?_, iff_of_true (by simp [determineInstallPath, hb]) hnprop,
      by simp [determineInstallPath], by simp [determineInstallPath],
      by simp [determineInstallPath]⟩
    apply iff_of_false
    · intro h
      rw [show determineInstallPath fs appName .auto =
            ("/usr/local/bin" ++ "/" ++ appName, .systemPath, true) from
          by simp [determineInstallPath, hb]] at h
      simp at h
    · exact hnprop

/-- C5, witness: the planner evaluated at a concrete environment. -/
theorem planInstallPath_spec_witness :
    determineInstallPath ⟨"/h", "/usr/bin:/h/.local/bin", true⟩ "app" .auto =
        ("/h" ++ "/.local/bin" ++ "/" ++ "app", .userPath, false) ∧
      determineInstallPath ⟨"/h", "/usr/bin:/h/.local/bin", true⟩ "app" .systemPath =
        ("/usr/local/bin" ++ "/" ++ "app", .systemPath, true) := by
  constructor
  · exact (planInstallPath_spec ⟨"/h", "/usr/bin:/h/.local/bin", true⟩ "app").1.mpr
      (by constructor
          · rfl
          · decide)
  · exact (planInstallPath_spec ⟨"/h", "/usr/bin:/h/.local/bin", true⟩ "app").2.2.1

/-! ## Claim C3: binary candidate priority and selection -/

/-- The priority function as claim C3 words it: 3 for a standalone
(non-archive) name, 2 for .tar.gz/.tgz, 1 for .zip, 0 otherwise. -/
def claimPriority (name : String) : Nat :=
  if isArchiveName name = false then 3
  else if strEnds (lowerStr name) ".tar.gz" || strEnds (lowerStr name) ".tgz" then 2
  else if strEnds (lowerStr name) ".zip" then 1
  else 0

theorem foldl_select_ge_init (a : BinaryAsset) (l : List BinaryAsset) :
    a.priority ≤ (l.foldl selectStep a).priority := by
  induction l generalizing a with
  | nil => simp
  | cons x t ih =>
    simp only [List.foldl_cons]
    have h1 : a.priority ≤ (selectStep a x).priority := by
      unfold selectStep; split <;> omega
    exact le_trans h1 (ih (selectStep a x))

theorem foldl_select_ge_mem (a : BinaryAsset) (l : List BinaryAsset) :
    ∀ b ∈ l, b.priority ≤ (l.foldl selectStep a).priority := by
  induction l generalizing a with
  | nil => intro b hb; cases hb
  | cons x t ih =>
    intro b hb
    simp only [List.foldl_cons]
    rcases List.mem_cons.mp hb with hbx | hbt
    · subst hbx
      have h1 : b.priority ≤ (selectStep a b).priority := by
        unfold selectStep; split <;> omega
      exact le_trans h1 (foldl_select_ge_init (selectStep a b) t)
    · exact ih (selectStep a x) b hbt

theorem foldl_select_first (l : List BinaryAsset) :
    ∀ (a : BinaryAsset),
      l.foldl selectStep a = a ∨
        ∃ n, ∃ hn : n < l.length,
          l.foldl selectStep a = l.get ⟨n, hn⟩ ∧
            a.priority < (l.get ⟨n, hn⟩).priority ∧
            ∀ m, ∀ hm : m < l.length, m < n →
              (l.get ⟨m, hm⟩).priority < (l.get ⟨n, hn⟩).priority := by
  induction l with
  | nil => intro a; left; rfl
  | cons x t ih =>
    intro a
    simp only [List.foldl_cons]
    by_cases hx : x.priority > a.priority
    · have hstep : selectStep a x = x := by unfold selectStep; rw [if_pos hx]
      rw [hstep]
      rcases ih x with h | ⟨n, hn, hfold, hlt, hfirst⟩
      · right
        refine ⟨0, by simp, ?_, hx, ?_⟩
        · rw [h]; rfl
        · intro m hm hm0; omega
      · right
        refine ⟨n + 1, by simp only [List.length_cons]; omega, ?_, lt_trans hx hlt, ?_⟩
        · rw [hfold]; rfl
        · intro m hm hmn
          cases m with
          | zero => exact hlt
          | succ k =>
            exact hfirst k (by simp only [List.length_cons] at hm; omega) (by omega)
    · have hstep : selectStep a x = a := by unfold selectStep; rw [if_neg hx]
      rw [hstep]
      rcases ih a with h | ⟨n, hn, hfold, hlt, hfirst⟩
      · left; exact h
      · right
        refine ⟨n + 1, by simp only [List.length_cons]; omega, ?_, hlt, ?_⟩
        · rw [hfold]; rfl
        · intro m hm hmn
          cases m with
          | zero => exact lt_of_le_of_lt (by omega : x.priority ≤ a.priority) hlt
          | succ k =>
            exact hfirst k (by simp only [List.length_cons] at hm; omega) (by omega)

/-- C3: getPriority is exactly the claimed 3/2/1/0 ranking, and for every
non-empty candidate list the selection loop of tryBinaryInstall returns
the first candidate (in release-asset order) attaining the maximal
priority. -/
theorem binarySelection_spec :
    (∀ name, getPriority name = claimPriority name) ∧
    ∀ (l : List BinaryAsset) (hne : l ≠ []),
      ∃ n, ∃ hn : n < l.length,
        selectBinary (l.head hne) l = l.get ⟨n, hn⟩ ∧
        (∀ m, ∀ hm : m < l.length,
          (l.get ⟨m, hm⟩).priority ≤ (l.get ⟨n, hn⟩).priority) ∧
        (∀ m, ∀ hm : m < l.length, m < n →
          (l.get ⟨m, hm⟩).priority < (l.get ⟨n, hn⟩).priority) := by
  constructor
  · intro name
    unfold getPriority claimPriority
    cases h : isArchiveName name <;> simp [h]
  · intro l hne
    match l, hne with
    | x :: t, _ =>
      have hfold : selectBinary ((x :: t).head (by simp)) (x :: t) =
          t.foldl selectStep x := by
        unfold selectBinary
        simp only [List.head, List.foldl_cons]
        have hstep : selectStep x x = x := by
          unfold selectStep
          rw [if_neg (by omega)]
        rw [hstep]
      rcases foldl_select_first t x with h | ⟨n, hn, hf, hlt, hfirst⟩
      · refine ⟨0, by simp, ?_, ?_, ?_⟩
        · rw [hfold, h]; rfl
        · intro m hm
          cases m with
          | zero => exact le_refl _
          | succ k =>
            have hk : k < t.length := by simp only [List.length_cons] at hm; omega
            have hmem : t.get ⟨k, hk⟩ ∈ t := List.get_mem t k hk
            have hge := foldl_select_ge_mem x t (t.get ⟨k, hk⟩) hmem
            rw [h] at hge
            exact hge
        · intro m hm hm0; omega
      · refine ⟨n + 1, by simp only [List.length_cons]; omega, ?_, ?_, ?_⟩
        · rw [hfold, hf]; rfl
        · intro m hm
          cases m with
          | zero => exact le_of_lt hlt
          | succ k =>
            have hk : k < t.length := by simp only [List.length_cons] at hm; omega
            have hmem : t.get ⟨k, hk⟩ ∈ t := List.get_mem t k hk
            have hge := foldl_select_ge_mem x t (t.get ⟨k, hk⟩) hmem
            rw [hf] at hge
            exact hge
        · intro m hm hmn
          cases m with
          | zero => exact hlt
          | succ k =>
            exact hfirst k (by simp only [List.length_cons] at hm; omega) (by omega)

/-- C3, witness: on the candidate list a.tar.gz, a, a.zip the standalone a
(priority 3) is selected, at an index making the selection the first
maximal candidate. -/
theorem binarySelection_spec_witness :
    getPriority "a" = claimPriority "a" ∧
    ∃ n, ∃ hn : n <
        ([⟨⟨"a.tar.gz", "", 0⟩, "a", true, 2⟩, ⟨⟨"a", "", 0⟩, "a", false, 3⟩,
          ⟨⟨"a.zip", "", 0⟩, "a", true, 1⟩] : List BinaryAsset).length,
      selectBinary
        (([⟨⟨"a.tar.gz", "", 0⟩, "a", true, 2⟩, ⟨⟨"a", "", 0⟩, "a", false, 3⟩,
           ⟨⟨"a.zip", "", 0⟩, "a", true, 1⟩] : List BinaryAsset).head (by simp))
        [⟨⟨"a.tar.gz", "", 0⟩, "a", true, 2⟩, ⟨⟨"a", "", 0⟩, "a", false, 3⟩,
         ⟨⟨"a.zip", "", 0⟩, "a", true, 1⟩] =
      ([⟨⟨"a.tar.gz", "", 0⟩, "a", true, 2⟩, ⟨⟨"a", "", 0⟩, "a", false, 3⟩,
        ⟨⟨"a.zip", "", 0⟩, "a", true, 1⟩] : List BinaryAsset).get ⟨n, hn⟩ := by
  constructor
  · exact binarySelection_spec.1 "a"
  · obtain ⟨n, hn, hi, _, _⟩ := binarySelection_spec.2
      [⟨⟨"a.tar.gz", "", 0⟩, "a", true, 2⟩, ⟨⟨"a", "", 0⟩, "a", false, 3⟩,
       ⟨⟨"a.zip", "", 0⟩, "a", true, 1⟩] (by simp)
    exact ⟨n, hn, hi⟩

/-! ## Claim C4: archive extraction -/

/-- The matching rule claim C4 states for tar entries: regular file, some
executable bit, base name equal to the expected executable name or
beginning with it. -/
def tarMatches (expectedName : String) (e : TarEntry) : Bool :=
  e.isReg && isExecutable e.mode &&
    (baseName e.name == expectedName || strStarts (baseName e.name) expectedName)

/-- The same matching rule for zip entries, whose regular-file test is the
non-directory test of the code. -/
def zipMatches (expectedName : String) (f : ZipEntry) : Bool :=
  !f.isDir && isExecutable f.mode &&
    (baseName f.name == expectedName || strStarts (baseName f.name) expectedName)

/-- C4: for both archive kinds, extraction returns the copied-out path of
the first entry in archive order satisfying the matching rule, and the
"binary not found" error naming the expected executable exactly when no
entry satisfies it. -/
theorem extract_spec (tarEntries : List TarEntry) (zipEntries : List ZipEntry)
    (expectedName tmpDir : String) :
    (extractFromTarGz tarEntries expectedName tmpDir =
      match tarEntries.find? (tarMatches expectedName) with
      | some e => .ok (tmpDir ++ "/" ++ expectedName, e)
      | none => .error ("binary " ++ expectedName ++ " not found in release archive")) ∧
    (extractFromZip zipEntries expectedName tmpDir =
      match zipEntries.find? (zipMatches expectedName) with
      | some f => .ok (tmpDir ++ "/" ++ expectedName, f)
      | none => .error ("binary " ++ expectedName ++ " not found in release archive")) := by
  constructor
  · induction tarEntries with
    | nil => rfl
    | cons e rest ih =>
      unfold extractFromTarGz
      cases hr : e.isReg with
      | false =>
        have hp : tarMatches expectedName e = false := by
          unfold tarMatches; rw [hr]; rfl
        rw [List.find?_cons_of_neg _ (by rw [hp]; exact Bool.false_ne_true)]
        simpa using ih
      | true =>
        cases hex : isExecutable e.mode with
        | false =>
          have hp : tarMatches expectedName e = false := by
            unfold tarMatches; rw [hr, hex]; rfl
          rw [List.find?_cons_of_neg _ (by rw [hp]; exact Bool.false_ne_true)]
          simpa using ih
        | true =>
          cases hm : (baseName e.name == expectedName ||
              strStarts (baseName e.name) expectedName) with
          | false =>
            have hp : tarMatches expectedName e = false := by
              unfold tarMatches; rw [hr, hex, hm]; rfl
            rw [List.find?_cons_of_neg _ (by rw [hp]; exact Bool.false_ne_true)]
            simpa [hm] using ih
          | true =>
            have hp : tarMatches expectedName e = true := by
              unfold tarMatches; rw [hr, hex, hm]; rfl
            rw [List.find?_cons_of_pos _ (by rw [hp])]
            simp [hr, hex, hm]
  · induction zipEntries with
    | nil => rfl
    | cons f rest ih =>
      unfold extractFromZip
      cases hd : f.isDir with
      | true =>
        have hp : zipMatches expectedName f = false := by
          unfold zipMatches; rw [hd]; rfl
        rw [List.find?_cons_of_neg _ (by rw [hp]; exact Bool.false_ne_true)]
        simpa [hd] using ih
      | false =>
        cases hex : isExecutable f.mode with
        | false =>
          have hp : zipMatches expectedName f = false := by
            unfold zipMatches; rw [hd, hex]; rfl
          rw [List.find?_cons_of_neg _ (by rw [hp]; exact Bool.false_ne_true)]
          simpa [hd] using ih
        | true =>
          cases hm : (baseName f.name == expectedName ||
              strStarts (baseName f.name) expectedName) with
          | false =>
            have hp : zipMatches expectedName f = false := by
              unfold zipMatches; rw [hd, hex, hm]; rfl
            rw [List.find?_cons_of_neg _ (by rw [hp]; exact Bool.false_ne_true)]
            simpa [hd, hm] using ih
          | true =>
            have hp : zipMatches expectedName f = true := by
              unfold zipMatches; rw [hd, hex, hm]; rfl
            rw [List.find?_cons_of_pos _ (by rw [hp])]
            simp [hd, hex, hm]

/-! ## Claim C8: GetCompatibleAssets error reporting -/

/-- C8, counterexample: on a deb/amd64 host, a release whose only asset is
app_i386.deb (recognized type deb, wrong architecture) makes
GetCompatibleAssets fail with an error listing exactly the preferred type
deb itself — not "the other package types", of which there are none.
packages.DetectType is modelled from the spec, see DetectType. -/
theorem getCompatibleAssets_claim_false :
    GetCompatibleAssets [⟨"app_i386.deb", "", 0⟩] .deb "amd64" =
      .error (.noCompatibleArch .deb "amd64" [.deb]) := by
  decide

theorem mem_availableTypes_foldl (release : List Asset) :
    ∀ (acc : List PkgType) (t : PkgType),
      (t ∈ release.foldl
        (fun acc a =>
          let u := DetectType a.name
          if u = .unknown then acc else if u ∈ acc then acc else acc ++ [u])
        acc) ↔
      (t ∈ acc ∨ (t ≠ .unknown ∧ ∃ a ∈ release, DetectType a.name = t)) := by
  induction release with
  | nil => intro acc t; simp
  | cons x rest ih =>
    intro acc t
    simp only [List.foldl_cons]
    rw [ih]
    constructor
    · rintro (hacc | hrest)
      · by_cases hu : DetectType x.name = .unknown
        · rw [if_pos hu] at hacc
          exact Or.inl hacc
        · rw [if_neg hu] at hacc
          by_cases hin : DetectType x.name ∈ acc
          · rw [if_pos hin] at hacc
            exact Or.inl hacc
          · rw [if_neg hin] at hacc
            rcases List.mem_append.mp hacc with h | h
            · exact Or.inl h
            · have ht : t = DetectType x.name := by simpa using h
              exact Or.inr ⟨by rw [ht]; exact hu, x, List.mem_cons_self x rest, ht.symm⟩
      · exact Or.inr ⟨hrest.1, hrest.2.choose,
          List.mem_cons_of_mem x hrest.2.choose_spec.1, hrest.2.choose_spec.2⟩
    · rintro (hacc | ⟨hne, a, ha, hdet⟩)
      · left
        by_cases hu : DetectType x.name = .unknown
        · rw [if_pos hu]; exact hacc
        · rw [if_neg hu]
          by_cases hin : DetectType x.name ∈ acc
          · rw [if_pos hin]; exact hacc
          · rw [if_neg hin]; exact List.mem_append.mpr (Or.inl hacc)
      · rcases List.mem_cons.mp ha with hax | harest
        · subst hax
          left
          rw [if_neg (by rw [hdet]; exact hne)]
          by_cases hin : DetectType a.name ∈ acc
          · rw [if_pos hin]; rw [← hdet]; exact hin
          · rw [if_neg hin]
            exact List.mem_append.mpr (Or.inr (by simp [hdet]))
        · exact Or.inr ⟨hne, a, harest, hdet⟩

/-- Membership description of availableTypes: exactly the recognized
(non-unknown) package types occurring among the release assets. -/
theorem mem_availableTypes (release : List Asset) (t : PkgType) :
    t ∈ availableTypes release ↔
      (t ≠ .unknown ∧ ∃ a ∈ release, DetectType a.name = t) := by
  unfold availableTypes
  rw [mem_availableTypes_foldl release [] t]
  simp

/-- The exact condition under which GetCompatibleAssets produces the
no-compatible-architecture error, stated against the model's determinized
availableTypes list. -/
theorem getCompatibleAssets_noCompatArch_iff (release : List Asset) (sysType : PkgType)
    (goarch : String) (l : List PkgType) :
    GetCompatibleAssets release sysType goarch = .error (.noCompatibleArch sysType goarch l) ↔
      (sysType ≠ .unknown ∧ compatibleAssets release sysType goarch = [] ∧
        availableTypes release ≠ [] ∧ l = availableTypes release) := by
  unfold GetCompatibleAssets
  by_cases hsys : sysType = .unknown
  · rw [if_pos hsys]
    constructor
    · intro h; cases h
    · rintro ⟨hne, _⟩; exact absurd hsys hne
  · rw [if_neg hsys]
    by_cases hcond : (compatibleAssets release sysType goarch).isEmpty &&
        !(availableTypes release).isEmpty
    · rw [if_pos hcond]
      have hc := Bool.and_eq_true_iff.mp hcond
      have h1 : compatibleAssets release sysType goarch = [] :=
        List.isEmpty_iff.mp hc.1
      have h2 : availableTypes release ≠ [] := by
        intro hz
        rw [List.isEmpty_iff.mpr hz] at hc
        simp at hc
      constructor
      · intro h
        cases h
        exact ⟨hsys, h1, h2, rfl⟩
      · rintro ⟨_, _, _, rfl⟩; rfl
    · rw [if_neg hcond]
      constructor
      · intro h; cases h
      · rintro ⟨_, h1, h2, _⟩
        exact absurd (Bool.and_eq_true_iff.mpr
          ⟨List.isEmpty_iff.mpr h1, by simpa using h2⟩) hcond

/-- C8, amended: when zero assets match the preferred type and
architecture but at least one asset carries a recognized package type, the
caller gets the typed no-compatible-architecture error rather than a
silent substitute — but the set of types it lists consists of all the
recognized types seen in the release, the preferred type included, not
only the other types.  The Go code collects those types by ranging over a
map, whose iteration order is unspecified, so only the set of listed
types — never their order — is program behaviour: every clause below is
membership-based. -/
theorem getCompatibleAssets_amended (release : List Asset) (sysType : PkgType)
    (goarch : String) :
    (∀ l, GetCompatibleAssets release sysType goarch =
        .error (.noCompatibleArch sysType goarch l) →
      (sysType ≠ .unknown ∧ compatibleAssets release sysType goarch = [] ∧
        ∀ t, t ∈ l ↔ (t ≠ .unknown ∧ ∃ a ∈ release, DetectType a.name = t))) ∧
    ((sysType ≠ .unknown ∧ compatibleAssets release sysType goarch = [] ∧
        (∃ a ∈ release, DetectType a.name ≠ .unknown)) →
      ∃ l, GetCompatibleAssets release sysType goarch =
          .error (.noCompatibleArch sysType goarch l) ∧
        ∀ t, t ∈ l ↔ (t ≠ .unknown ∧ ∃ a ∈ release, DetectType a.name = t)) ∧
    (compatibleAssets release sysType goarch = [] ↔
      ∀ a ∈ release, ¬(DetectType a.name = sysType ∧ matchedArch goarch a.name = true)) := by
  refine ⟨?_, ?_, ?_⟩
  · intro l h
    obtain ⟨hsys, hempty, -, hl⟩ :=
      (getCompatibleAssets_noCompatArch_iff release sysType goarch l).mp h
    refine ⟨hsys, hempty, fun t => ?_⟩
    rw [hl]
    exact mem_availableTypes release t
  · rintro ⟨hsys, hempty, a, ha, hdet⟩
    have hne : availableTypes release ≠ [] := by
      intro hz
      have hm := (mem_availableTypes release (DetectType a.name)).mpr
        ⟨hdet, a, ha, rfl⟩
      rw [hz] at hm
      cases hm
    exact ⟨availableTypes release,
      (getCompatibleAssets_noCompatArch_iff release sysType goarch
        (availableTypes release)).mpr ⟨hsys, hempty, hne, rfl⟩,
      fun t => mem_availableTypes release t⟩
  · unfold compatibleAssets
    rw [List.filter_eq_nil_iff]
    constructor
    · intro h a ha
      rintro ⟨hdet, harch⟩
      have := h a ha
      rw [if_pos hdet] at this
      exact this harch
    · intro h a ha
      by_cases hdet : DetectType a.name = sysType
      · rw [if_pos hdet]
        intro harch
        exact h a ha ⟨hdet, harch⟩
      · rw [if_neg hdet]
        simp

/-- C8, witness: the amended existence clause applied to the concrete
one-asset release of the counterexample, listing exactly the recognized
types seen there. -/
theorem getCompatibleAssets_amended_witness :
    ∃ l, GetCompatibleAssets [⟨"app_i386.deb", "", 0⟩] .deb "amd64" =
        .error (.noCompatibleArch .deb "amd64" l) ∧
      ∀ t, t ∈ l ↔ (t ≠ .unknown ∧
        ∃ a ∈ [(⟨"app_i386.deb", "", 0⟩ : Asset)], DetectType a.name = t) :=
  (getCompatibleAssets_amended [⟨"app_i386.deb", "", 0⟩] .deb "amd64").2.1
    ⟨by decide, by decide, ⟨"app_i386.deb", "", 0⟩,
      List.mem_singleton.mpr rfl, by decide⟩

/-! ## Claim C2: explicit-method requests and the strategy chain -/

/-- Failing input for C2: a Linux deb host, a release carrying a
compatible deb package and a linux/amd64 tarball, every external step
succeeding. -/
def envC2 : Env :=
  { goos := "linux", goarch := "amd64", sysType := .deb,
    release := [⟨"app_1.0.0_amd64.deb", "", 0⟩, ⟨"app_1.0.0_linux_amd64.tar.gz", "", 0⟩],
    relTag := "v1.0.0", tmpDir := "/tmp", fs := ⟨"/h", "/usr/bin", false⟩,
    brewOnPath := false, pkgRunOk := true, pkgRunErr := "",
    brewSearchOk := false, brewSearchErr := "no formula found",
    brewInstallOk := false, brewInstallErr := "exit status 1",
    brewVersionOk := false, brewVersion := "",
    binDownloadOk := true, binDownloadErr := "",
    extractOutcome := .ok "/tmp/app", placeOk := true, placeErr := "" }

/-- C2: requesting the explicit SystemPath method through
manager.InstallApp runs the native-package strategy — and only it — because
manager.tryBinaryInstall forwards to installer.InstallUpdate without
setting ForceMethod, whose guard !ForceMethod || Method == Auto then
admits the package attempt.  The record is even stamped with install
method "binary" and the package's temp download path.  The claim (and
spec section 4.6: explicit requests bypass the chain) say exactly one
forced strategy is attempted. -/
theorem installApp_forced_method_bug :
    (managerInstallApp envC2 ⟨"app", "", "", "", "", ""⟩ .systemPath).2.2 =
        [Event.package] ∧
      (managerInstallApp envC2 ⟨"app", "", "", "", "", ""⟩ .systemPath).1.installMethod =
        "binary" ∧
      (managerInstallApp envC2 ⟨"app", "", "", "", "", ""⟩ .systemPath).1.binaryPath =
        "/tmp/app_1.0.0_amd64.deb" := by
  refine ⟨?_, ?_, ?_⟩ <;> decide

/-! ## Claim C6: Homebrew attempts in Auto mode -/

theorem installerTryPackage_trace (env : Env) :
    (installerTryPackage env).2 = [.package] := by
  unfold installerTryPackage
  cases h : GetCompatibleAssets env.release env.sysType env.goarch with
  | error e => rfl
  | ok assets =>
    cases assets with
    | nil => rfl
    | cons a t =>
      cases hp : env.pkgRunOk <;> simp [hp]

theorem installerTryHomebrew_trace (env : Env) :
    (installerTryHomebrew env).2 = [.homebrew] := by
  unfold installerTryHomebrew
  cases h1 : env.brewSearchOk <;> cases h2 : env.brewInstallOk <;> simp [h1, h2]

theorem installBinaryDirectM_trace (env : Env) (appName : String) (m : InstallMethod) :
    (installBinaryDirectM env appName m).2 = [.binaryPlace] := by
  unfold installBinaryDirectM
  cases hp : env.placeOk <;> simp [hp]

theorem installerTryBinary_hb (env : Env) (m : InstallMethod) :
    (installerTryBinary env m).2.count Event.homebrew ≤ 1 ∧
      ((env.goos == "darwin" && env.brewOnPath) = false →
        (installerTryBinary env m).2.count Event.homebrew = 0) := by
  unfold installerTryBinary
  cases hdet : DetectBinaryAssets env.goos env.goarch env.release with
  | nil => simp
  | cons b0 rest =>
    cases hdl : env.binDownloadOk with
    | false => simp [hdl]
    | true =>
      cases hex : env.extractOutcome with
      | error e => simp [hdl, hex]
      | ok p =>
        cases hgate : (env.goos == "darwin" && env.brewOnPath) with
        | false =>
          simp only [hdl, hex, hgate, Bool.not_true, Bool.not_false, if_true, if_false,
            Bool.false_eq_true, ite_false, ite_true]
          rw [installBinaryDirectM_trace]
          simp
        | true =>
          simp only [hdl, hex, hgate, Bool.not_true, Bool.not_false, if_true, if_false,
            Bool.true_eq_false, ite_false, ite_true]
          cases hhb : installerTryHomebrew env with
          | mk r evts =>
            have hevts : evts = [.homebrew] := by
              have := installerTryHomebrew_trace env
              rw [hhb] at this
              exact this
            cases r with
            | ok v =>
              subst hevts
              constructor
              · show List.count Event.homebrew [Event.homebrew] ≤ 1
                decide
              · intro hcontra
                exact hcontra.elim
            | error e =>
              subst hevts
              constructor
              · show List.count Event.homebrew
                  ([Event.homebrew] ++
                    (installBinaryDirectM env (selectBinary b0 (b0 :: rest)).binaryName m).2) ≤ 1
                rw [List.count_append, installBinaryDirectM_trace]
                decide
              · intro hcontra
                exact hcontra.elim

theorem installerInstallUpdate_hb (env : Env) (m : InstallMethod) (f : Bool) :
    (installerInstallUpdate env m f).2.count Event.homebrew ≤ 1 ∧
      ((env.goos == "darwin" && env.brewOnPath) = false →
        (installerInstallUpdate env m f).2.count Event.homebrew = 0) := by
  unfold installerInstallUpdate
  cases hg : (!f || m == .auto) with
  | false =>
    simp only [hg, Bool.false_eq_true, if_false, ite_false]
    exact installerTryBinary_hb env m
  | true =>
    simp only [hg, if_true, ite_true]
    cases hpkg : installerTryPackage env with
    | mk r evts =>
      have hevts : evts = [.package] := by
        have := installerTryPackage_trace env
        rw [hpkg] at this
        exact this
      cases r with
      | ok v =>
        subst hevts
        constructor
        · simp [List.count_cons]
        · intro _; simp [List.count_cons]
      | error e =>
        subst hevts
        have hcnt : ∀ t : List Event,
            List.count Event.homebrew ([Event.package] ++ t) = List.count Event.homebrew t := by
          intro t
          rw [List.count_append]
          have h0 : List.count Event.homebrew [Event.package] = 0 := by decide
          omega
        constructor
        · show List.count Event.homebrew ([Event.package] ++ (installerTryBinary env m).2) ≤ 1
          rw [hcnt]
          exact (installerTryBinary_hb env m).1
        · intro hgate
          show List.count Event.homebrew ([Event.package] ++ (installerTryBinary env m).2) = 0
          rw [hcnt]
          exact (installerTryBinary_hb env m).2 hgate

theorem managerTryPackage_trace (env : Env) (app : AppState) :
    ∃ tl, (managerTryPackage env app).2.2 = Event.package :: tl ∧
      tl.count Event.homebrew ≤ 1 ∧
      ((env.goos == "darwin" && env.brewOnPath) = false →
        tl.count Event.homebrew = 0) := by
  unfold managerTryPackage
  cases h : GetCompatibleAssets env.release env.sysType env.goarch with
  | error e => exact ⟨[], rfl, by simp, by intro _; simp⟩
  | ok assets =>
    cases hne : assets.isEmpty with
    | true => exact ⟨[], by simp [hne], by simp, by intro _; simp⟩
    | false =>
      cases hiu : installerInstallUpdate env .auto false with
      | mk r evts =>
        have h1 : evts.count Event.homebrew ≤ 1 := by
          have := (installerInstallUpdate_hb env .auto false).1
          rw [hiu] at this
          exact this
        have h2 : (env.goos == "darwin" && env.brewOnPath) = false →
            evts.count Event.homebrew = 0 := by
          intro hg
          have := (installerInstallUpdate_hb env .auto false).2 hg
          rw [hiu] at this
          exact this
        cases r with
        | ok v => exact ⟨evts, by simp [hne, hiu], h1, h2⟩
        | error e => exact ⟨evts, by simp [hne, hiu], h1, h2⟩

theorem managerTryHomebrew_hb (env : Env) (app : AppState) :
    (managerTryHomebrew env app).2.2.count Event.homebrew ≤ 1 ∧
      ((env.goos == "darwin" && env.brewOnPath) = false →
        (managerTryHomebrew env app).2.2.count Event.homebrew = 0) := by
  unfold managerTryHomebrew
  cases hg : (env.goos == "darwin" && env.brewOnPath) with
  | false => simp [hg]
  | true =>
    cases h1 : env.brewSearchOk <;> cases h2 : env.brewInstallOk <;>
      cases h3 : env.brewVersionOk <;>
        simp [hg, h1, h2, h3, List.count_cons]

theorem managerTryBinary_hb (env : Env) (app : AppState) (m : InstallMethod) :
    (managerTryBinary env app m).2.2.count Event.homebrew ≤ 1 ∧
      ((env.goos == "darwin" && env.brewOnPath) = false →
        (managerTryBinary env app m).2.2.count Event.homebrew = 0) := by
  unfold managerTryBinary
  cases hiu : installerInstallUpdate env m false with
  | mk r evts =>
    have h1 : evts.count Event.homebrew ≤ 1 := by
      have := (installerInstallUpdate_hb env m false).1
      rw [hiu] at this
      exact this
    have h2 : (env.goos == "darwin" && env.brewOnPath) = false →
        evts.count Event.homebrew = 0 := by
      intro hg
      have := (installerInstallUpdate_hb env m false).2 hg
      rw [hiu] at this
      exact this
    cases r with
    | ok v => exact ⟨h1, h2⟩
    | error e => exact ⟨h1, h2⟩

theorem count_hb_package_cons (t : List Event) :
    List.count Event.homebrew (Event.package :: t) = List.count Event.homebrew t := by
  rw [show Event.package :: t = [Event.package] ++ t from rfl, List.count_append]
  have h0 : List.count Event.homebrew [Event.package] = 0 := by decide
  omega

theorem installApp_auto_trace (env : Env) (app : AppState) :
    ∃ tl, (managerInstallApp env app .auto).2.2 = Event.package :: tl ∧
      (managerInstallApp env app .auto).2.2.count Event.homebrew ≤ 3 ∧
      ((env.goos == "darwin" && env.brewOnPath) = false →
        (managerInstallApp env app .auto).2.2.count Event.homebrew = 0) := by
  unfold managerInstallApp
  rw [if_neg (by simp)]
  obtain ⟨tl, htl, htl1, htl0⟩ := managerTryPackage_trace env app
  cases hmp : managerTryPackage env app with
  | mk a1 rest1 =>
    cases rest1 with
    | mk r1 evts1 =>
      have hevts1 : evts1 = Event.package :: tl := by
        rw [hmp] at htl
        exact htl
      subst hevts1
      cases r1 with
      | ok u =>
        refine ⟨tl, rfl, ?_, ?_⟩
        · rw [count_hb_package_cons]; omega
        · intro hg; rw [count_hb_package_cons]; exact htl0 hg
      | error e =>
        obtain ⟨hmh1, hmh0⟩ := managerTryHomebrew_hb env app
        obtain ⟨hmb1, hmb0⟩ := managerTryBinary_hb env app .auto
        cases hgoos : (env.goos == "darwin") with
        | false =>
          have hgate : (env.goos == "darwin" && env.brewOnPath) = false := by
            rw [hgoos]; rfl
          cases hmb : managerTryBinary env app .auto with
          | mk a3 rest3 =>
            cases rest3 with
            | mk r3 evts3 =>
              have he3c : evts3.count Event.homebrew ≤ 1 := by rw [hmb] at hmb1; exact hmb1
              have he30 : (env.goos == "darwin" && env.brewOnPath) = false →
                  evts3.count Event.homebrew = 0 := by
                intro hg; have := hmb0 hg; rw [hmb] at this; exact this
              cases r3 with
              | error e3 =>
                refine ⟨tl ++ evts3, by simp, ?_, ?_⟩
                · show List.count Event.homebrew ((Event.package :: tl) ++ evts3) ≤ 3
                  rw [List.count_append, count_hb_package_cons]
                  omega
                · intro hg
                  show List.count Event.homebrew ((Event.package :: tl) ++ evts3) = 0
                  rw [List.count_append, count_hb_package_cons]
                  have := htl0 (by rw [hgoos]; exact hg)
                  have := he30 (by rw [hgoos]; exact hg)
                  omega
              | ok u3 =>
                refine ⟨tl ++ evts3, by simp, ?_, ?_⟩
                · show List.count Event.homebrew ((Event.package :: tl) ++ evts3) ≤ 3
                  rw [List.count_append, count_hb_package_cons]
                  omega
                · intro hg
                  show List.count Event.homebrew ((Event.package :: tl) ++ evts3) = 0
                  rw [List.count_append, count_hb_package_cons]
                  have := htl0 (by rw [hgoos]; exact hg)
                  have := he30 (by rw [hgoos]; exact hg)
                  omega
        | true =>
          cases hmh : managerTryHomebrew env app with
          | mk a2 rest2 =>
            cases rest2 with
            | mk r2 evts2 =>
              have he2c : evts2.count Event.homebrew ≤ 1 := by rw [hmh] at hmh1; exact hmh1
              have he20 : (env.goos == "darwin" && env.brewOnPath) = false →
                  evts2.count Event.homebrew = 0 := by
                intro hg; have := hmh0 hg; rw [hmh] at this; exact this
              cases r2 with
              | ok u2 =>
                refine ⟨tl ++ evts2, by simp, ?_, ?_⟩
                · show List.count Event.homebrew ((Event.package :: tl) ++ evts2) ≤ 3
                  rw [List.count_append, count_hb_package_cons]
                  omega
                · intro hg
                  show List.count Event.homebrew ((Event.package :: tl) ++ evts2) = 0
                  rw [List.count_append, count_hb_package_cons]
                  have := htl0 (by rw [hgoos]; exact hg)
                  have := he20 (by rw [hgoos]; exact hg)
                  omega
              | error e2 =>
                cases hmb : managerTryBinary env app .auto with
                | mk a3 rest3 =>
                  cases rest3 with
                  | mk r3 evts3 =>
                    have he3c : evts3.count Event.homebrew ≤ 1 := by
                      rw [hmb] at hmb1; exact hmb1
                    have he30 : (env.goos == "darwin" && env.brewOnPath) = false →
                        evts3.count Event.homebrew = 0 := by
                      intro hg; have := hmb0 hg; rw [hmb] at this; exact this
                    cases r3 with
                    | error e3 =>
                      refine ⟨tl ++ evts2 ++ evts3, by simp, ?_, ?_⟩
                      · show List.count Event.homebrew
                          (((Event.package :: tl) ++ evts2) ++ evts3) ≤ 3
                        rw [List.count_append, List.count_append, count_hb_package_cons]
                        omega
                      · intro hg
                        show List.count Event.homebrew
                          (((Event.package :: tl) ++ evts2) ++ evts3) = 0
                        rw [List.count_append, List.count_append, count_hb_package_cons]
                        have := htl0 (by rw [hgoos]; exact hg)
                        have := he20 (by rw [hgoos]; exact hg)
                        have := he30 (by rw [hgoos]; exact hg)
                        omega
                    | ok u3 =>
                      refine ⟨tl ++ evts2 ++ evts3, by simp, ?_, ?_⟩
                      · show List.count Event.homebrew
                          (((Event.package :: tl) ++ evts2) ++ evts3) ≤ 3
                        rw [List.count_append, List.count_append, count_hb_package_cons]
                        omega
                      · intro hg
                        show List.count Event.homebrew
                          (((Event.package :: tl) ++ evts2) ++ evts3) = 0
                        rw [List.count_append, List.count_append, count_hb_package_cons]
                        have := htl0 (by rw [hgoos]; exact hg)
                        have := he20 (by rw [hgoos]; exact hg)
                        have := he30 (by rw [hgoos]; exact hg)
                        omega

/-- Failing input for C6: a macOS host with Homebrew on PATH, an
unrecognized system package type, a matching darwin/amd64 tarball, a
Homebrew formula search that fails, and a successful binary placement. -/
def envC6 : Env :=
  { goos := "darwin", goarch := "amd64", sysType := .unknown,
    release := [⟨"app-darwin-amd64.tar.gz", "", 0⟩],
    relTag := "v1.0.0", tmpDir := "/tmp", fs := ⟨"/h", "/usr/bin", false⟩,
    brewOnPath := true, pkgRunOk := false, pkgRunErr := "exit status 1",
    brewSearchOk := false, brewSearchErr := "no formula found",
    brewInstallOk := false, brewInstallErr := "exit status 1",
    brewVersionOk := false, brewVersion := "",
    binDownloadOk := true, binDownloadErr := "",
    extractOutcome := .ok "/tmp/app", placeOk := true, placeErr := "" }

/-- C6, counterexample: in this Auto-mode install on macOS the Homebrew
strategy is attempted twice — once by manager.InstallApp between the
package and binary steps, and once more inside installer.tryBinaryInstall
— not exactly once as claimed. -/
theorem installApp_homebrew_claim_false :
    ((managerInstallApp envC6 ⟨"app", "", "", "", "", ""⟩ .auto).2.2).count
        Event.homebrew = 2 := by
  decide

/-- C6, amended: in Auto mode the Homebrew strategy is never attempted on
a non-macOS host, nor when Homebrew is not on PATH; on macOS with Homebrew
present it may be attempted up to three times (manager layer plus the
installer layer reached through both manager.tryPackageInstall and
manager.tryBinaryInstall), not exactly once; and no strategy runs before
the native-package strategy has been attempted (the trace always starts
with a package attempt). -/
theorem installApp_homebrew_amended (env : Env) (app : AppState) :
    (managerInstallApp env app .auto).2.2.count Event.homebrew ≤ 3 ∧
    (env.goos ≠ "darwin" →
      (managerInstallApp env app .auto).2.2.count Event.homebrew = 0) ∧
    (env.brewOnPath = false →
      (managerInstallApp env app .auto).2.2.count Event.homebrew = 0) ∧
    (managerInstallApp env app .auto).2.2.head? = some Event.package := by
  obtain ⟨tl, htl, hc3, hc0⟩ := installApp_auto_trace env app
  refine ⟨hc3, ?_, ?_, ?_⟩
  · intro h
    apply hc0
    have : (env.goos == "darwin") = false := beq_eq_false_iff_ne.mpr h
    rw [this]
    rfl
  · intro h
    apply hc0
    rw [h]
    simp
  · rw [htl]
    rfl

/-- A concrete Linux environment for the C6 witness. -/
def envC6W : Env :=
  { goos := "linux", goarch := "amd64", sysType := .deb,
    release := [⟨"app_1.0.0_linux_amd64.tar.gz", "", 0⟩],
    relTag := "v1.0.0", tmpDir := "/tmp", fs := ⟨"/h", "/usr/bin", false⟩,
    brewOnPath := false, pkgRunOk := false, pkgRunErr := "exit status 1",
    brewSearchOk := false, brewSearchErr := "no formula found",
    brewInstallOk := false, brewInstallErr := "exit status 1",
    brewVersionOk := false, brewVersion := "",
    binDownloadOk := true, binDownloadErr := "",
    extractOutcome := .ok "/tmp/app", placeOk := true, placeErr := "" }

/-- C6, witness: the amended bounds applied to a concrete Linux
environment, where the Homebrew count is forced to zero. -/
theorem installApp_homebrew_amended_witness :
    (managerInstallApp envC6W ⟨"app", "", "", "", "", ""⟩ .auto).2.2.count
        Event.homebrew = 0 :=
  (installApp_homebrew_amended envC6W ⟨"app", "", "", "", "", ""⟩).2.1 (by decide)

/-! ## Claim C9: TrackedApplication record invariant -/

theorem str_append_ne_empty (s t : String) (h : s.data ≠ []) : s ++ t ≠ "" := by
  intro hc
  have hd : s.data ++ t.data = ("" : String).data := by rw [← hc]; rfl
  exact h (List.append_eq_nil.mp hd).1

/-- Well-formedness of the external failure oracles: the error strings the
operating system and subprocesses report are non-empty (every Go error in
the sources whose text is not built by the code itself). -/
def Env.wf (env : Env) : Prop :=
  env.brewSearchErr ≠ "" ∧ env.placeErr ≠ "" ∧
    ∀ s, env.extractOutcome = .error s → s ≠ ""

theorem installBinaryDirectM_err (env : Env) (a : String) (m : InstallMethod)
    (hwf : env.wf) : ∀ e, (installBinaryDirectM env a m).1 = .error e → e ≠ "" := by
  intro e
  unfold installBinaryDirectM
  cases hp : env.placeOk with
  | true => intro he; simp at he
  | false =>
    intro he
    simp only [Bool.not_false, if_true, ite_true] at he
    have he2 : (if (determineInstallPath env.fs a m).2.2 then
        "sudo install failed: " ++ env.placeErr else env.placeErr) = e := by
      cases he; rfl
    cases hs : (determineInstallPath env.fs a m).2.2 with
    | true =>
      rw [hs, if_pos rfl] at he2
      rw [← he2]
      exact str_append_ne_empty _ _ (by decide)
    | false =>
      rw [hs] at he2
      simp only [Bool.false_eq_true, if_false, ite_false] at he2
      rw [← he2]
      exact hwf.2.1

theorem installerTryBinary_err (env : Env) (m : InstallMethod) (hwf : env.wf) :
    ∀ e, (installerTryBinary env m).1 = .error e → e ≠ "" := by
  intro e
  unfold installerTryBinary
  cases hdet : DetectBinaryAssets env.goos env.goarch env.release with
  | nil =>
    intro he
    have : "no binary assets found" = e := by cases he; rfl
    rw [← this]; decide
  | cons b0 rest =>
    cases hdl : env.binDownloadOk with
    | false =>
      intro he
      simp only [Bool.not_false, if_true, ite_true] at he
      have : "failed to download: " ++ env.binDownloadErr = e := by cases he; rfl
      rw [← this]
      exact str_append_ne_empty _ _ (by decide)
    | true =>
      cases hex : env.extractOutcome with
      | error s =>
        intro he
        simp only [Bool.not_true, Bool.false_eq_true, if_false, ite_false] at he
        have : s = e := by cases he; rfl
        rw [← this]
        exact hwf.2.2 s hex
      | ok p =>
        cases hgate : (env.goos == "darwin" && env.brewOnPath) with
        | false =>
          intro he
          simp only [Bool.not_true, Bool.false_eq_true, if_false, ite_false] at he
          exact installBinaryDirectM_err env (selectBinary b0 (b0 :: rest)).binaryName m hwf e he
        | true =>
          cases hhb : installerTryHomebrew env with
          | mk r evts =>
            cases r with
            | ok v => intro he; simp only [Bool.not_true, Bool.false_eq_true,
                if_false, ite_false] at he; cases he
            | error e0 =>
              intro he
              simp only [Bool.not_true, Bool.false_eq_true, if_false, ite_false] at he
              exact installBinaryDirectM_err env
                (selectBinary b0 (b0 :: rest)).binaryName m hwf e he

theorem installerInstallUpdate_err (env : Env) (m : InstallMethod) (f : Bool)
    (hwf : env.wf) : ∀ e, (installerInstallUpdate env m f).1 = .error e → e ≠ "" := by
  intro e
  unfold installerInstallUpdate
  cases hg : (!f || m == .auto) with
  | false =>
    intro he
    simp only [Bool.false_eq_true, if_false, ite_false] at he
    exact installerTryBinary_err env m hwf e he
  | true =>
    cases hpkg : installerTryPackage env with
    | mk r evts =>
      cases r with
      | ok v => intro he; simp only [if_true, ite_true] at he; cases he
      | error e0 =>
        intro he
        simp only [if_true, ite_true] at he
        exact installerTryBinary_err env m hwf e he

theorem managerTryBinary_facts (env : Env) (app : AppState) (m : InstallMethod)
    (hwf : env.wf) :
    ((managerTryBinary env app m).1.binaryPath = app.binaryPath ∨
      (managerTryBinary env app m).1.installMethod = "binary") ∧
    (∀ e, (managerTryBinary env app m).2.1 = .error e →
      e ≠ "" ∧ (managerTryBinary env app m).1 = app) ∧
    ((∃ u, (managerTryBinary env app m).2.1 = .ok u) →
      (managerTryBinary env app m).1.installMethod = "binary") := by
  unfold managerTryBinary
  cases hiu : installerInstallUpdate env m false with
  | mk r evts =>
    cases r with
    | error e0 =>
      refine ⟨Or.inl rfl, ?_, ?_⟩
      · intro e he
        have : e0 = e := by cases he; rfl
        subst this
        exact ⟨installerInstallUpdate_err env m false hwf e0 (by rw [hiu]), rfl⟩
      · rintro ⟨u, hu⟩; cases hu
    | ok r0 =>
      refine ⟨Or.inr rfl, ?_, ?_⟩
      · intro e he; cases he
      · intro _; rfl

theorem managerTryHomebrew_facts (env : Env) (app : AppState) (hwf : env.wf) :
    (managerTryHomebrew env app).1.binaryPath = app.binaryPath ∧
    (∀ e, (managerTryHomebrew env app).2.1 = .error e → e ≠ "") := by
  unfold managerTryHomebrew
  cases hg : (env.goos == "darwin" && env.brewOnPath) with
  | false =>
    simp only [Bool.not_false, if_true, ite_true]
    refine ⟨by trivial, ?_⟩
    intro e he
    have : "homebrew not installed" = e := by cases he; rfl
    rw [← this]; decide
  | true =>
    simp only [Bool.not_true, Bool.false_eq_true, if_false, ite_false]
    cases h1 : env.brewSearchOk with
    | false =>
      simp only [Bool.not_false, if_true, ite_true]
      refine ⟨by trivial, ?_⟩
      intro e he
      have : env.brewSearchErr = e := by cases he; rfl
      rw [← this]; exact hwf.1
    | true =>
      simp only [Bool.not_true, Bool.false_eq_true, if_false, ite_false]
      cases h2 : env.brewInstallOk with
      | false =>
        simp only [Bool.not_false, if_true, ite_true]
        refine ⟨by trivial, ?_⟩
        intro e he
        have : "brew install failed: " ++ env.brewInstallErr = e := by cases he; rfl
        rw [← this]
        exact str_append_ne_empty _ _ (by decide)
      | true =>
        simp only [Bool.not_true, Bool.false_eq_true, if_false, ite_false]
        cases h3 : env.brewVersionOk with
        | true => exact ⟨rfl, by intro e he; cases he⟩
        | false => exact ⟨rfl, by intro e he; cases he⟩

theorem managerTryPackage_path (env : Env) (app : AppState) :
    (managerTryPackage env app).1.binaryPath = app.binaryPath := by
  unfold managerTryPackage
  cases h : GetCompatibleAssets env.release env.sysType env.goarch with
  | error e => rfl
  | ok assets =>
    cases hne : assets.isEmpty with
    | true => simp [hne]
    | false =>
      cases hiu : installerInstallUpdate env .auto false with
      | mk r evts =>
        cases r with
        | error e => simp [hne]
        | ok v => simp [hne]

/-- config.detectInstallMethod (part_006): look the tracked app up on the
PATH; when found, record the discovered path in the record's BinaryPath,
and classify the install as homebrew when the path looks Homebrew-managed
(contains /Cellar/ or /homebrew/) and a brew list run succeeds, as binary
otherwise; when the lookup fails, return the empty unknown method without
touching the record.  lookPathOk/lookPath model exec.LookPath and
brewListOk the brew list subprocess; Save's migration assigns the
returned string to the record's InstallMethod. -/
def detectInstallMethod (lookPathOk : Bool) (lookPath : String)
    (brewListOk : Bool) (app : AppState) : AppState × String :=
  if !lookPathOk then (app, "")
  else
    let app1 := { app with binaryPath := lookPath }
    if (strContains lookPath "/Cellar/" || strContains lookPath "/homebrew/") &&
        brewListOk then
      (app1, "homebrew")
    else (app1, "binary")

/-- Failing input for C9: the Linux deb host of a successful Auto package
install. -/
def envC9 : Env :=
  { goos := "linux", goarch := "amd64", sysType := .deb,
    release := [⟨"app_1.0.0_amd64.deb", "", 0⟩],
    relTag := "v1.0.0", tmpDir := "/tmp", fs := ⟨"/h", "/usr/bin", false⟩,
    brewOnPath := false, pkgRunOk := true, pkgRunErr := "",
    brewSearchOk := false, brewSearchErr := "no formula found",
    brewInstallOk := false, brewInstallErr := "exit status 1",
    brewVersionOk := false, brewVersion := "",
    binDownloadOk := true, binDownloadErr := "",
    extractOutcome := .ok "/tmp/app", placeOk := true, placeErr := "permission denied" }

/-- C9, counterexample: after a successful Auto-mode package install the
record has installMethod set to package while binaryPath stays empty, so
"installMethod and binaryPath are both set or both empty" fails — the code
writes binaryPath only on binary installs.  And config.detectInstallMethod
(whose result Save's migration assigns to installMethod) sets binaryPath
to the discovered path while classifying a Homebrew-managed binary as
homebrew, so even the one-sided link from a non-empty binaryPath to the
binary install method fails for that cited operation. -/
theorem installApp_record_claim_false :
    ((managerInstallApp envC9 ⟨"app", "", "", "", "", ""⟩ .auto).1.installMethod =
        "package" ∧
      (managerInstallApp envC9 ⟨"app", "", "", "", "", ""⟩ .auto).1.binaryPath = "" ∧
      ¬((managerInstallApp envC9 ⟨"app", "", "", "", "", ""⟩ .auto).1.installMethod = "" ↔
        (managerInstallApp envC9 ⟨"app", "", "", "", "", ""⟩ .auto).1.binaryPath = "")) ∧
    ((detectInstallMethod true "/opt/homebrew/bin/app" true
        ⟨"app", "1.0.0", "", "", "", ""⟩).1.binaryPath = "/opt/homebrew/bin/app" ∧
      (detectInstallMethod true "/opt/homebrew/bin/app" true
        ⟨"app", "1.0.0", "", "", "", ""⟩).2 = "homebrew") := by
  refine ⟨⟨?_, ?_, ?_⟩, ?_, ?_⟩ <;> decide

/-- C9, amended: no variant of the claimed invariant holds for every
record-mutating operation — detectInstallMethod breaks even the one-sided
link (see the counterexample).  For a manager.InstallApp outcome the
one-sided form holds, provided the record's binaryPath starts empty (a
pre-set binaryPath surviving a package or homebrew success would refute
it): binaryPath is non-empty only when the recorded install method is
binary, and a failed install status always carries a non-empty install
error (assuming the external failure oracles report non-empty error
text). -/
theorem installApp_record_amended (env : Env) (app : AppState)
    (method : InstallMethod) (hpath : app.binaryPath = "") (hwf : env.wf) :
    ((managerInstallApp env app method).1.binaryPath ≠ "" →
      (managerInstallApp env app method).1.installMethod = "binary") ∧
    ((managerInstallApp env app method).1.installStatus = "failed" →
      (managerInstallApp env app method).1.installError ≠ "") := by
  obtain ⟨hmbPath, hmbErr, hmbOk⟩ := managerTryBinary_facts env app .auto hwf
  unfold managerInstallApp
  by_cases hm : method ≠ .auto
  · rw [if_pos hm]
    unfold managerInstallWithMethod
    by_cases hhb : method = .homebrew
    · rw [if_pos hhb]
      obtain ⟨hbp, herr⟩ := managerTryHomebrew_facts env app hwf
      cases hmh : managerTryHomebrew env app with
      | mk a1 rest =>
        cases rest with
        | mk r evts =>
          have ha1 : a1.binaryPath = "" := by
            rw [hmh] at hbp
            rw [show a1.binaryPath = (a1, r, evts).1.binaryPath from rfl, hbp, hpath]
          cases r with
          | error e =>
            constructor
            · intro hne
              exact absurd ha1 (by simpa using hne)
            · intro _
              show e ≠ ""
              rw [hmh] at herr
              exact herr e rfl
          | ok u =>
            constructor
            · intro hne
              exact absurd ha1 (by simpa using hne)
            · intro hst
              have hcontra : ("installed" : String) = "failed" := hst
              exact absurd hcontra (by decide)
    · rw [if_neg hhb]
      obtain ⟨hmbPath2, hmbErr2, hmbOk2⟩ := managerTryBinary_facts env app method hwf
      cases hmb : managerTryBinary env app method with
      | mk a1 rest =>
        cases rest with
        | mk r evts =>
          cases r with
          | error e =>
            have hfacts := hmbErr2 e (by rw [hmb])
            have ha1 : a1 = app := by
              have := hfacts.2
              rw [hmb] at this
              exact this
            constructor
            · intro hne
              subst ha1
              exact absurd hpath (by simpa using hne)
            · intro _
              simpa using hfacts.1
          | ok u =>
            have hbin : a1.installMethod = "binary" := by
              have := hmbOk2 ⟨u, by rw [hmb]⟩
              rw [hmb] at this
              exact this
            constructor
            · intro _
              simpa using hbin
            · intro hst
              have hcontra : ("installed" : String) = "failed" := hst
              exact absurd hcontra (by decide)
  · rw [if_neg hm]
    obtain ⟨hbpPkg⟩ := And.intro (managerTryPackage_path env app) trivial
    cases hmp : managerTryPackage env app with
    | mk a1 rest1 =>
      cases rest1 with
      | mk r1 evts1 =>
        have ha1 : a1.binaryPath = "" := by
          rw [hmp] at hbpPkg
          rw [show a1.binaryPath = (a1, r1, evts1).1.binaryPath from rfl, hbpPkg, hpath]
        cases r1 with
        | ok u =>
          constructor
          · intro hne
            exact absurd ha1 (by simpa using hne)
          · intro hst
            have hcontra : ("installed" : String) = "failed" := hst
            exact absurd hcontra (by decide)
        | error e1 =>
          obtain ⟨hbp2, herr2⟩ := managerTryHomebrew_facts env app hwf
          cases hgoos : (env.goos == "darwin") with
          | true =>
            cases hmh : managerTryHomebrew env app with
            | mk a2 rest2 =>
              cases rest2 with
              | mk r2 evts2 =>
                have ha2 : a2.binaryPath = "" := by
                  rw [hmh] at hbp2
                  rw [show a2.binaryPath = (a2, r2, evts2).1.binaryPath from rfl,
                    hbp2, hpath]
                cases r2 with
                | ok u2 =>
                  constructor
                  · intro hne
                    exact absurd ha2 (by simpa using hne)
                  · intro hst
                    have hcontra : ("installed" : String) = "failed" := hst
                    exact absurd hcontra (by decide)
                | error e2 =>
                  cases hmb : managerTryBinary env app .auto with
                  | mk a3 rest3 =>
                    cases rest3 with
                    | mk r3 evts3 =>
                      cases r3 with
                      | error e3 =>
                        have hfacts := hmbErr e3 (by rw [hmb])
                        have ha3 : a3 = app := by
                          have := hfacts.2
                          rw [hmb] at this
                          exact this
                        constructor
                        · intro hne
                          subst ha3
                          exact absurd hpath (by simpa using hne)
                        · intro _
                          simpa using hfacts.1
                      | ok u3 =>
                        have hbin : a3.installMethod = "binary" := by
                          have := hmbOk ⟨u3, by rw [hmb]⟩
                          rw [hmb] at this
                          exact this
                        constructor
                        · intro _
                          simpa using hbin
                        · intro hst
                          have hcontra : ("installed" : String) = "failed" := hst
                          exact absurd hcontra (by decide)
          | false =>
            cases hmb : managerTryBinary env app .auto with
            | mk a3 rest3 =>
              cases rest3 with
              | mk r3 evts3 =>
                cases r3 with
                | error e3 =>
                  have hfacts := hmbErr e3 (by rw [hmb])
                  have ha3 : a3 = app := by
                    have := hfacts.2
                    rw [hmb] at this
                    exact this
                  constructor
                  · intro hne
                    subst ha3
                    exact absurd hpath (by simpa using hne)
                  · intro _
                    simpa using hfacts.1
                | ok u3 =>
                  have hbin : a3.installMethod = "binary" := by
                    have := hmbOk ⟨u3, by rw [hmb]⟩
                    rw [hmb] at this
                    exact this
                  constructor
                  · intro _
                    simpa using hbin
                  · intro hst
                    have hcontra : ("installed" : String) = "failed" := hst
                    exact absurd hcontra (by decide)

/-- A Linux host whose release carries only a tarball: the package
strategy finds nothing and the binary strategy succeeds. -/
def envC9b : Env :=
  { goos := "linux", goarch := "amd64", sysType := .deb,
    release := [⟨"app_1.0.0_linux_amd64.tar.gz", "", 0⟩],
    relTag := "v1.0.0", tmpDir := "/tmp", fs := ⟨"/h", "/usr/bin", false⟩,
    brewOnPath := false, pkgRunOk := false, pkgRunErr := "exit status 1",
    brewSearchOk := false, brewSearchErr := "no formula found",
    brewInstallOk := false, brewInstallErr := "exit status 1",
    brewVersionOk := false, brewVersion := "",
    binDownloadOk := true, binDownloadErr := "",
    extractOutcome := .ok "/tmp/app", placeOk := true, placeErr := "permission denied" }

/-- C9, witness: the amended invariant applied to the concrete successful
binary install of envC9b, whose record ends with a non-empty binaryPath,
forcing install method binary. -/
theorem installApp_record_amended_witness :
    (managerInstallApp envC9b ⟨"app", "", "", "", "", ""⟩ .auto).1.installMethod =
      "binary" :=
  (installApp_record_amended envC9b ⟨"app", "", "", "", "", ""⟩ .auto rfl
    ⟨by decide, by decide, fun s hs => by cases hs⟩).1 (by decide)

/-! ## Claim C10: cleanRepoURL idempotence

Supporting theory for the Go strings.Split / strings.Trim model: structure
of the leftmost occurrence found by findSep, absence of the separator from
the produced chunks, and the concrete computations cleanRepoURL performs
on an already-canonical URL. -/

theorem isPrefB_iff (p : List Char) : ∀ l, isPrefB p l = true ↔ ∃ t, l = p ++ t := by
  induction p with
  | nil => intro l; simp [isPrefB]
  | cons a as ih =>
    intro l
    cases l with
    | nil =>
      simp only [isPrefB]
      constructor
      · intro h; cases h
      · rintro ⟨t, ht⟩; cases ht
    | cons b bs =>
      simp only [isPrefB, Bool.and_eq_true, beq_iff_eq]
      rw [ih bs]
      constructor
      · rintro ⟨rfl, t, rfl⟩; exact ⟨t, rfl⟩
      · rintro ⟨t, ht⟩
        cases ht
        exact ⟨rfl, t, rfl⟩

theorem isPrefB_self_append (p t : List Char) : isPrefB p (p ++ t) = true :=
  (isPrefB_iff p (p ++ t)).mpr ⟨t, rfl⟩

theorem findSep_decomp (sep : List Char) :
    ∀ l pre post, findSep sep l = some (pre, post) → l = pre ++ sep ++ post := by
  intro l
  induction l with
  | nil =>
    intro pre post h
    rw [findSep] at h
    split at h
    · rename_i hpref
      obtain ⟨t, ht⟩ := (isPrefB_iff sep []).mp hpref
      have hsep : sep = [] := by
        cases List.append_eq_nil.mp ht.symm with
        | intro h1 h2 => exact h1
      cases h with
      | refl => simp [hsep]
    · cases h
  | cons c t ih =>
    intro pre post h
    rw [findSep] at h
    split at h
    · rename_i hpref
      obtain ⟨r, hr⟩ := (isPrefB_iff sep (c :: t)).mp hpref
      cases h with
      | refl =>
        rw [hr, List.drop_left]
        simp
    · split at h
      · cases h
      · rename_i pre1 post1 hf
        cases h with
        | refl =>
          have := ih pre1 post hf
          rw [List.cons_append, List.cons_append, ← this]

theorem findSep_min (sep : List Char) :
    ∀ l pre post, findSep sep l = some (pre, post) →
      ∀ p2 q2, l = p2 ++ sep ++ q2 → pre.length ≤ p2.length := by
  intro l
  induction l with
  | nil =>
    intro pre post h p2 q2 hl
    rw [findSep] at h
    split at h
    · cases h with
      | refl => simp
    · cases h
  | cons c t ih =>
    intro pre post h p2 q2 hl
    rw [findSep] at h
    split at h
    · cases h with
      | refl => simp
    · rename_i hpref
      split at h
      · cases h
      · rename_i pre1 post1 hf
        cases h with
        | refl =>
          cases p2 with
          | nil =>
            exact absurd ((isPrefB_iff sep (c :: t)).mpr ⟨q2, by simpa using hl⟩) hpref
          | cons d p2t =>
            injection hl with hcd hct
            have := ih pre1 post hf p2t q2 hct
            simp only [List.length_cons]
            omega

theorem findSep_complete (sep : List Char) :
    ∀ p q l, l = p ++ sep ++ q → (findSep sep l).isSome = true := by
  intro p
  induction p with
  | nil =>
    intro q l hl
    cases l with
    | nil =>
      rw [findSep]
      rw [if_pos ((isPrefB_iff sep []).mpr ⟨q, hl⟩)]
      rfl
    | cons c t =>
      rw [findSep]
      rw [if_pos ((isPrefB_iff sep (c :: t)).mpr ⟨q, by simpa using hl⟩)]
      rfl
  | cons d p2 ih =>
    intro q l hl
    cases l with
    | nil => simp at hl
    | cons c t =>
      injection hl with hcd hct
      rw [findSep]
      split
      · rfl
      · have hsome := ih q t hct
        cases hf : findSep sep t with
        | none => rw [hf] at hsome; cases hsome
        | some pr =>
          obtain ⟨x, y⟩ := pr
          rfl

theorem findSep_none_of_not_infix (sep l : List Char)
    (h : ¬∃ p q, l = p ++ sep ++ q) : findSep sep l = none := by
  cases hf : findSep sep l with
  | none => rfl
  | some pr =>
    obtain ⟨pre, post⟩ := pr
    exact absurd ⟨pre, post, findSep_decomp sep l pre post hf⟩ h

theorem splitGo_ne_nil (sep : List Char) (hsep : sep ≠ []) (l : List Char) :
    splitGo sep l ≠ [] := by
  rw [splitGo_eq sep hsep l]
  cases hf : findSep sep l with
  | none => simp
  | some pr => cases pr; simp

theorem splitGo_chunks_aux (sep : List Char) (hsep : sep ≠ []) :
    ∀ n (l : List Char), l.length ≤ n → ∀ c ∈ splitGo sep l, ¬∃ p q, c = p ++ sep ++ q := by
  intro n
  induction n with
  | zero =>
    intro l hlen c hc
    have hl : l = [] := List.length_eq_zero.mp (by omega)
    subst hl
    rw [splitGo_eq sep hsep] at hc
    have hnone : findSep sep [] = none := by
      rw [findSep]
      rw [if_neg]
      intro hpref
      obtain ⟨t, ht⟩ := (isPrefB_iff sep []).mp hpref
      exact hsep (List.append_eq_nil.mp ht.symm).1
    rw [hnone] at hc
    have hcl : c = [] := by simpa using hc
    subst hcl
    rintro ⟨p, q, hpq⟩
    have := congrArg List.length hpq
    simp at this
    cases sep with
    | nil => exact hsep rfl
    | cons s ss => simp at this; omega
  | succ n ih =>
    intro l hlen c hc
    rw [splitGo_eq sep hsep] at hc
    cases hf : findSep sep l with
    | none =>
      rw [hf] at hc
      have hcl : c = l := by simpa using hc
      subst hcl
      rintro ⟨p, q, hpq⟩
      have := findSep_complete sep p q c hpq
      rw [hf] at this
      cases this
    | some pr =>
      obtain ⟨pre, post⟩ := pr
      rw [hf] at hc
      rcases List.mem_cons.mp hc with hcp | hcr
      · subst hcp
        rintro ⟨p, q, hpq⟩
        have hdec := findSep_decomp sep l c post hf
        have hmin := findSep_min sep l c post hf p (q ++ sep ++ post)
          (by rw [hdec, hpq]; simp [List.append_assoc])
        have : c.length = p.length + sep.length + q.length := by
          rw [hpq]
          simp only [List.length_append]
        cases sep with
        | nil => exact hsep rfl
        | cons s ss =>
          simp only [List.length_cons] at this
          omega
      · have hshrink := findSep_shrink sep hsep l pre post hf
        exact ih post (by omega) c hcr

theorem splitGo_chunks (sep : List Char) (hsep : sep ≠ []) (l : List Char) :
    ∀ c ∈ splitGo sep l, ¬∃ p q, c = p ++ sep ++ q :=
  splitGo_chunks_aux sep hsep l.length l (le_refl _)

theorem splitGo_pair (sep : List Char) (hsep : sep ≠ []) (l pre post : List Char)
    (hf : findSep sep l = some (pre, post)) (hn : findSep sep post = none) :
    splitGo sep l = [pre, post] := by
  rw [splitGo_eq sep hsep l, hf]
  show pre :: splitGo sep post = [pre, post]
  rw [splitGo_eq sep hsep post, hn]

theorem splitGo_single (sep : List Char) (hsep : sep ≠ []) (l : List Char)
    (hn : findSep sep l = none) : splitGo sep l = [l] := by
  rw [splitGo_eq sep hsep l, hn]

theorem single_decomp_unique (c : Char) :
    ∀ (x1 y1 x2 y2 : List Char), x1 ++ c :: y1 = x2 ++ c :: y2 →
      c ∉ x1 → c ∉ x2 → x1 = x2 ∧ y1 = y2 := by
  intro x1
  induction x1 with
  | nil =>
    intro y1 x2 y2 h h1 h2
    cases x2 with
    | nil =>
      refine ⟨rfl, ?_⟩
      injection h
    | cons d x2t =>
      injection h with hd ht
      exact absurd (by rw [hd]; exact List.mem_cons_self d x2t) h2
  | cons d x1t ih =>
    intro y1 x2 y2 h h1 h2
    cases x2 with
    | nil =>
      injection h with hd ht
      exact absurd (by rw [← hd]; exact List.mem_cons_self d x1t) h1
    | cons e x2t =>
      injection h with hde ht
      have hrec := ih y1 x2t y2 ht
        (fun hm => h1 (List.mem_cons_of_mem d hm))
        (fun hm => h2 (List.mem_cons_of_mem e hm))
      exact ⟨by rw [hde, hrec.1], hrec.2⟩

theorem findSep_single_boundary (c : Char) :
    ∀ (a b : List Char), c ∉ a → findSep [c] (a ++ c :: b) = some (a, b) := by
  intro a
  induction a with
  | nil =>
    intro b _
    show findSep [c] (c :: b) = some ([], b)
    rw [findSep]
    rw [if_pos (by simp [isPrefB])]
    rfl
  | cons d at1 ih =>
    intro b hc
    have hd : ¬(d = c) := fun h => hc (by rw [h]; exact List.mem_cons_self c at1)
    rw [List.cons_append, findSep]
    rw [if_neg (by
      show ¬isPrefB [c] (d :: (at1 ++ c :: b)) = true
      simp [isPrefB]
      intro h
      exact absurd h.symm hd)]
    rw [ih b (fun hm => hc (List.mem_cons_of_mem d hm))]

theorem findSep_single_none (c : Char) :
    ∀ (l : List Char), c ∉ l → findSep [c] l = none := by
  intro l
  induction l with
  | nil => intro _; rfl
  | cons d t ih =>
    intro hc
    have hd : ¬(d = c) := fun h => hc (by rw [h]; exact List.mem_cons_self c t)
    rw [findSep]
    rw [if_neg (by
      simp [isPrefB]
      intro h
      exact absurd h.symm hd)]
    rw [ih (fun hm => hc (List.mem_cons_of_mem d hm))]

/-- The leftmost occurrence of "github.com/" in "https://github.com/" ++
rest sits right after the scheme, whatever rest is ("https://" contains no
g, and the decomposition is definitional). -/
theorem findSep_https (rest : List Char) :
    findSep ("github.com/").data (("https://").data ++ ("github.com/").data ++ rest) =
      some (("https://").data, rest) := rfl

theorem ltrim_eq_self_of_not_mem (c : Char) (l : List Char) (h : c ∉ l) :
    ltrim c l = l := by
  cases l with
  | nil => rfl
  | cons d t =>
    rw [ltrim]
    rw [if_neg (by
      simp only [beq_iff_eq]
      intro hd
      exact h (by rw [hd]; exact List.mem_cons_self c t))]

theorem ltrim_suffix (c : Char) : ∀ l, ∃ s, l = s ++ ltrim c l := by
  intro l
  induction l with
  | nil => exact ⟨[], rfl⟩
  | cons d t ih =>
    by_cases hd : (d == c) = true
    · obtain ⟨s, hs⟩ := ih
      rw [ltrim, if_pos hd]
      exact ⟨d :: s, by rw [List.cons_append, ← hs]⟩
    · rw [ltrim, if_neg hd]
      exact ⟨[], rfl⟩

theorem ltrim_head_ne (c : Char) : ∀ l d t, ltrim c l = d :: t → ¬(d = c) := by
  intro l
  induction l with
  | nil => intro d t h; cases h
  | cons e l2 ih =>
    intro d t h
    rw [ltrim] at h
    by_cases he : (e == c) = true
    · rw [if_pos he] at h
      exact ih d t h
    · rw [if_neg he] at h
      injection h with h1 _
      intro hdc
      apply he
      rw [h1, hdc]
      simp

theorem rtrim_eq_self_of_not_mem (c : Char) (l : List Char) (h : c ∉ l) :
    rtrim c l = l := by
  unfold rtrim
  rw [ltrim_eq_self_of_not_mem c l.reverse (by simpa using h), List.reverse_reverse]

theorem rtrim_append_single (c : Char) (a : List Char) (h : c ∉ a) :
    rtrim c (a ++ [c]) = a := by
  unfold rtrim
  rw [List.reverse_append]
  show (ltrim c (c :: a.reverse)).reverse = a
  rw [ltrim, if_pos (by simp), ltrim_eq_self_of_not_mem c a.reverse (by simpa using h),
    List.reverse_reverse]

theorem rtrim_prefix (c : Char) (l : List Char) : ∃ t, l = rtrim c l ++ t := by
  obtain ⟨s, hs⟩ := ltrim_suffix c l.reverse
  refine ⟨s.reverse, ?_⟩
  unfold rtrim
  have := congrArg List.reverse hs
  rw [List.reverse_reverse, List.reverse_append] at this
  exact this

theorem trimBoth_infix (c : Char) (l : List Char) :
    ∃ s t, l = s ++ trimBoth c l ++ t := by
  obtain ⟨s, hs⟩ := ltrim_suffix c l
  obtain ⟨t, ht⟩ := rtrim_prefix c (ltrim c l)
  refine ⟨s, t, ?_⟩
  show l = s ++ rtrim c (ltrim c l) ++ t
  conv_lhs => rw [hs, ht]
  simp [List.append_assoc]

theorem trimBoth_head_ne (c : Char) (l : List Char) (d : Char) (t : List Char)
    (h : trimBoth c l = d :: t) : ¬(d = c) := by
  obtain ⟨t2, ht2⟩ := rtrim_prefix c (ltrim c l)
  unfold trimBoth at h
  rw [h] at ht2
  exact ltrim_head_ne c l d (t ++ t2) (by rw [ht2]; simp)

theorem not_infix_boundary (a b : List Char) (ha : ('/' : Char) ∉ a)
    (hb : ('/' : Char) ∉ b) (hgh : ¬∃ s, a = s ++ ("github.com").data) :
    ¬∃ p q, a ++ '/' :: b = p ++ ("github.com/").data ++ q := by
  rintro ⟨p, q, hpq⟩
  have hsepeq : ("github.com/").data = ("github.com").data ++ ['/'] := rfl
  have hpq2 : a ++ '/' :: b = (p ++ ("github.com").data) ++ '/' :: q := by
    rw [hpq, hsepeq]
    simp [List.append_assoc]
  have hcnt : List.count '/' (a ++ '/' :: b) =
      List.count '/' ((p ++ ("github.com").data) ++ '/' :: q) := by rw [hpq2]
  rw [List.count_append, List.count_cons_self, List.count_append,
    List.count_cons_self, List.count_append] at hcnt
  have h0a : List.count '/' a = 0 := List.count_eq_zero.mpr ha
  have h0b : List.count '/' b = 0 := List.count_eq_zero.mpr hb
  have hg0 : List.count '/' (("github.com").data) = 0 := by decide
  have h0pg : List.count '/' (p ++ ("github.com").data) = 0 := by
    rw [List.count_append]
    omega
  have hnm : ('/' : Char) ∉ p ++ ("github.com").data := List.count_eq_zero.mp h0pg
  have huniq := single_decomp_unique '/' a b (p ++ ("github.com").data) q hpq2 ha hnm
  exact hgh ⟨p, huniq.1⟩

theorem rtrim_eq_self_of_ne_last (c : Char) (x y : List Char) (hy : y ≠ [])
    (hcy : c ∉ y) : rtrim c (x ++ y) = x ++ y := by
  unfold rtrim
  rw [List.reverse_append]
  have hself : ltrim c (y.reverse ++ x.reverse) = y.reverse ++ x.reverse := by
    cases hyr : y.reverse with
    | nil => exact absurd (by simpa using congrArg List.reverse hyr) hy
    | cons d t =>
      have hd : ¬(d == c) = true := by
        simp only [beq_iff_eq]
        intro hdc
        apply hcy
        rw [← hdc]
        have : d ∈ y.reverse := by rw [hyr]; exact List.mem_cons_self d t
        exact List.mem_reverse.mp this
      show ltrim c (d :: (t ++ x.reverse)) = (d :: t) ++ x.reverse
      rw [ltrim, if_neg hd]
      rfl
  rw [hself, List.reverse_append, List.reverse_reverse, List.reverse_reverse]

/-- cleanRepoURL leaves an already-rebuilt URL untouched: for slash-free
owner and repo components, with the owner not ending in github.com, the
URL https://github.com/owner/repo maps to itself. -/
theorem cleanRepoURL_fix (a b : List Char) (ha : ('/' : Char) ∉ a)
    (hb : ('/' : Char) ∉ b) (hgh : ¬∃ s, a = s ++ ("github.com").data) :
    cleanRepoURL (String.mk (("https://github.com/").data ++ a ++ '/' :: b)) =
      String.mk (("https://github.com/").data ++ a ++ '/' :: b) := by
  have hsepne : ("github.com/").data ≠ [] := by decide
  have hslashne : (['/'] : List Char) ≠ [] := by decide
  have hdata : (String.mk (("https://github.com/").data ++ a ++ '/' :: b)).data =
      ("https://").data ++ ("github.com/").data ++ (a ++ '/' :: b) := by
    show ("https://github.com/").data ++ a ++ '/' :: b = _
    rw [show ("https://github.com/").data = ("https://").data ++ ("github.com/").data
      from rfl]
    simp [List.append_assoc]
  have hni := not_infix_boundary a b ha hb hgh
  have hfs : findSep ("github.com/").data
      (String.mk (("https://github.com/").data ++ a ++ '/' :: b)).data =
      some (("https://").data, a ++ '/' :: b) := by
    rw [hdata]
    exact findSep_https (a ++ '/' :: b)
  have hsg : splitGo ("github.com/").data
      (String.mk (("https://github.com/").data ++ a ++ '/' :: b)).data =
      [("https://").data, a ++ '/' :: b] :=
    splitGo_pair _ hsepne _ _ _ hfs ( findSep_none_of_not_infix _ _ hni)
  have hcontains : strContains (String.mk (("https://github.com/").data ++ a ++ '/' :: b))
      "github.com/" = true := by
    unfold strContains containsSub
    rw [hfs]
    rfl
  unfold cleanRepoURL
  rw [if_pos hcontains, hsg]
  show (match splitGo ['/'] (trimBoth '/' (a ++ '/' :: b)) with
    | a2 :: b2 :: _ =>
        String.mk (("https://github.com/").data ++ a2 ++ '/' :: b2)
    | _ => String.mk (("https://github.com/").data ++ a ++ '/' :: b)) = _
  cases hacase : a with
  | nil =>
    have htrim : trimBoth '/' (([] : List Char) ++ '/' :: b) = b := by
      show trimBoth '/' ('/' :: b) = b
      unfold trimBoth
      rw [show ltrim '/' ('/' :: b) = ltrim '/' b from by rw [ltrim, if_pos (by simp)],
        ltrim_eq_self_of_not_mem '/' b hb]
      exact rtrim_eq_self_of_not_mem '/' b hb
    rw [htrim, splitGo_single ['/'] hslashne b (findSep_single_none '/' b hb)]
  | cons a0 at1 =>
    have hlt : ltrim '/' ((a0 :: at1) ++ '/' :: b) = (a0 :: at1) ++ '/' :: b := by
      have ha0 : ¬(a0 == '/') = true := by
        simp only [beq_iff_eq]
        intro h
        rw [hacase] at ha
        exact ha (by rw [← h]; exact List.mem_cons_self a0 at1)
      show ltrim '/' (a0 :: (at1 ++ '/' :: b)) = a0 :: (at1 ++ '/' :: b)
      rw [ltrim, if_neg ha0]
    rw [hacase] at ha
    cases hbcase : b with
    | nil =>
      rw [hbcase] at hlt
      have htrim : trimBoth '/' ((a0 :: at1) ++ '/' :: ([] : List Char)) = a0 :: at1 := by
        unfold trimBoth
        rw [hlt]
        show rtrim '/' ((a0 :: at1) ++ ['/']) = a0 :: at1
        exact rtrim_append_single '/' (a0 :: at1) ha
      rw [htrim,
        splitGo_single ['/'] hslashne (a0 :: at1) (findSep_single_none '/' (a0 :: at1) ha)]
    | cons b0 bt =>
      rw [hbcase] at hlt hb
      have htrim : trimBoth '/' ((a0 :: at1) ++ '/' :: (b0 :: bt)) =
          (a0 :: at1) ++ '/' :: (b0 :: bt) := by
        unfold trimBoth
        rw [hlt]
        have hx : (a0 :: at1) ++ '/' :: (b0 :: bt) =
            ((a0 :: at1) ++ ['/']) ++ (b0 :: bt) := by simp
        rw [hx, rtrim_eq_self_of_ne_last '/' ((a0 :: at1) ++ ['/']) (b0 :: bt)
          (by simp) hb]
      rw [htrim]
      rw [splitGo_pair ['/'] hslashne _ _ _
        (findSep_single_boundary '/' (a0 :: at1) (b0 :: bt) ha)
        (findSep_single_none '/' (b0 :: bt) hb)]

/-- Every output of cleanRepoURL is either its own input or a rebuilt URL
whose owner/repo chunks are slash-free, with a non-empty owner not ending
in github.com. -/
theorem cleanRepoURL_cases (u : String) :
    cleanRepoURL u = u ∨
      ∃ a b : List Char, ('/' : Char) ∉ a ∧ ('/' : Char) ∉ b ∧
        (¬∃ s, a = s ++ ("github.com").data) ∧
        cleanRepoURL u = String.mk (("https://github.com/").data ++ a ++ '/' :: b) := by
  have hsepne : ("github.com/").data ≠ [] := by decide
  have hslashne : (['/'] : List Char) ≠ [] := by decide
  unfold cleanRepoURL
  cases hc : strContains u "github.com/" with
  | false => left; rw [if_neg Bool.false_ne_true]
  | true =>
    rw [if_pos rfl]
    cases hsg : splitGo ("github.com/").data u.data with
    | nil => left; rfl
    | cons x0 xs =>
      cases xs with
      | nil => left; rfl
      | cons p1 xs2 =>
        cases xs2 with
        | cons y ys => left; rfl
        | nil =>
          cases hsp : splitGo ['/'] (trimBoth '/' p1) with
          | nil =>
            left
            show (match splitGo ['/'] (trimBoth '/' p1) with
              | a :: b :: _ =>
                  String.mk (("https://github.com/").data ++ a ++ '/' :: b)
              | _ => u) = u
            rw [hsp]
          | cons a as =>
            cases as with
            | nil =>
              left
              show (match splitGo ['/'] (trimBoth '/' p1) with
                | a2 :: b2 :: _ =>
                    String.mk (("https://github.com/").data ++ a2 ++ '/' :: b2)
                | _ => u) = u
              rw [hsp]
            | cons b rest2 =>
              right
              have hamem : a ∈ splitGo ['/'] (trimBoth '/' p1) := by
                rw [hsp]; exact List.mem_cons_self a (b :: rest2)
              have hbmem : b ∈ splitGo ['/'] (trimBoth '/' p1) := by
                rw [hsp]
                exact List.mem_cons_of_mem a (List.mem_cons_self b rest2)
              have hachunk := splitGo_chunks ['/'] hslashne (trimBoth '/' p1) a hamem
              have hbchunk := splitGo_chunks ['/'] hslashne (trimBoth '/' p1) b hbmem
              have f1 : ('/' : Char) ∉ a := by
                intro hm
                obtain ⟨s, t, hst⟩ := List.append_of_mem hm
                exact hachunk ⟨s, t, by rw [hst]; simp [List.append_assoc]⟩
              have f2 : ('/' : Char) ∉ b := by
                intro hm
                obtain ⟨s, t, hst⟩ := List.append_of_mem hm
                exact hbchunk ⟨s, t, by rw [hst]; simp [List.append_assoc]⟩
              have hsome : ∃ post, findSep ['/'] (trimBoth '/' p1) = some (a, post) ∧
                  trimBoth '/' p1 = a ++ '/' :: post := by
                cases hf : findSep ['/'] (trimBoth '/' p1) with
                | none =>
                  rw [splitGo_single ['/'] hslashne _ hf] at hsp
                  simp at hsp
                | some pr =>
                  obtain ⟨pre, post⟩ := pr
                  have heq : splitGo ['/'] (trimBoth '/' p1) =
                      pre :: splitGo ['/'] post := by
                    rw [splitGo_eq ['/'] hslashne, hf]
                  rw [hsp] at heq
                  have hpre : a = pre := by injection heq
                  subst hpre
                  exact ⟨post, rfl, by
                    have := findSep_decomp ['/'] (trimBoth '/' p1) a post hf
                    simpa using this⟩
              obtain ⟨post, hf, hdecomp⟩ := hsome
              have f4 : ¬∃ s, a = s ++ ("github.com").data := by
                rintro ⟨s, hs⟩
                have hp1mem : p1 ∈ splitGo ("github.com/").data u.data := by
                  rw [hsg]
                  exact List.mem_cons_of_mem x0 (List.mem_cons_self p1 [])
                have hp1chunk := splitGo_chunks ("github.com/").data hsepne u.data p1 hp1mem
                obtain ⟨s2, t2, hst⟩ := trimBoth_infix '/' p1
                apply hp1chunk
                refine ⟨s2 ++ s, post ++ t2, ?_⟩
                rw [hst, hdecomp, hs]
                rw [show ("github.com/").data = ("github.com").data ++ ['/'] from rfl]
                simp [List.append_assoc]
              refine ⟨a, b, f1, f2, f4, ?_⟩
              show (match splitGo ['/'] (trimBoth '/' p1) with
                | a2 :: b2 :: _ =>
                    String.mk (("https://github.com/").data ++ a2 ++ '/' :: b2)
                | _ => u) = _
              rw [hsp]

/-- C10: the repository-URL normalization of AddApp is idempotent, and any
URL already of the canonical form https://github.com/owner/repo (owner and
repo free of slashes) is left unchanged. -/
theorem cleanRepoURL_idempotent :
    (∀ u : String, cleanRepoURL (cleanRepoURL u) = cleanRepoURL u) ∧
    (∀ owner repo : List Char, ('/' : Char) ∉ owner → ('/' : Char) ∉ repo →
      cleanRepoURL (String.mk (("https://github.com/").data ++ owner ++ '/' :: repo)) =
        String.mk (("https://github.com/").data ++ owner ++ '/' :: repo)) := by
  have hsepne : ("github.com/").data ≠ [] := by decide
  constructor
  · intro u
    rcases cleanRepoURL_cases u with h | ⟨a, b, f1, f2, f4, h⟩
    · rw [h]; exact h
    · rw [h]
      exact cleanRepoURL_fix a b f1 f2 f4
  · intro owner repo ho hr
    by_cases hinf : ∃ p q, owner ++ '/' :: repo = p ++ ("github.com/").data ++ q
    · obtain ⟨p, q, hpq⟩ := hinf
      have hdata : (String.mk (("https://github.com/").data ++ owner ++ '/' :: repo)).data =
          ("https://").data ++ ("github.com/").data ++ (owner ++ '/' :: repo) := by
        show ("https://github.com/").data ++ owner ++ '/' :: repo = _
        rw [show ("https://github.com/").data =
          ("https://").data ++ ("github.com/").data from rfl]
        simp [List.append_assoc]
      have hfs : findSep ("github.com/").data
          (String.mk (("https://github.com/").data ++ owner ++ '/' :: repo)).data =
          some (("https://").data, owner ++ '/' :: repo) := by
        rw [hdata]
        exact findSep_https (owner ++ '/' :: repo)
      have hcomplete := findSep_complete ("github.com/").data p q (owner ++ '/' :: repo) hpq
      cases hf2 : findSep ("github.com/").data (owner ++ '/' :: repo) with
      | none => rw [hf2] at hcomplete; cases hcomplete
      | some pr =>
        obtain ⟨p0, q0⟩ := pr
        have hne3 := splitGo_ne_nil ("github.com/").data hsepne q0
        have hsg : splitGo ("github.com/").data
            (String.mk (("https://github.com/").data ++ owner ++ '/' :: repo)).data =
            ("https://").data :: p0 :: splitGo ("github.com/").data q0 := by
          rw [splitGo_eq ("github.com/").data hsepne, hfs]
          show ("https://").data :: splitGo ("github.com/").data (owner ++ '/' :: repo) = _
          rw [splitGo_eq ("github.com/").data hsepne, hf2]
        have hcontains : strContains
            (String.mk (("https://github.com/").data ++ owner ++ '/' :: repo))
            "github.com/" = true := by
          unfold strContains containsSub
          rw [hfs]
          rfl
        unfold cleanRepoURL
        rw [if_pos hcontains, hsg]
        cases hq0 : splitGo ("github.com/").data q0 with
        | nil => exact absurd hq0 hne3
        | cons w ws => rfl
    · apply cleanRepoURL_fix owner repo ho hr
      rintro ⟨s, hs⟩
      apply hinf
      refine ⟨s, repo, ?_⟩
      rw [hs, show ("github.com/").data = ("github.com").data ++ ['/'] from rfl]
      simp [List.append_assoc]

/-- C10, witness: the canonical-form clause applied to a concrete
owner/repo pair, together with idempotence at a concrete messy URL. -/
theorem cleanRepoURL_idempotent_witness :
    cleanRepoURL (String.mk (("https://github.com/").data ++
        ("vicendominguez").data ++ '/' :: ("autonomix-cli").data)) =
      String.mk (("https://github.com/").data ++
        ("vicendominguez").data ++ '/' :: ("autonomix-cli").data) ∧
    cleanRepoURL (cleanRepoURL "https://github.com/owner/repo/releases/tag/v1") =
      cleanRepoURL "https://github.com/owner/repo/releases/tag/v1" := by
  constructor
  · exact cleanRepoURL_idempotent.2 ("vicendominguez").data ("autonomix-cli").data
      (by decide) (by decide)
  · exact cleanRepoURL_idempotent.1 "https://github.com/owner/repo/releases/tag/v1"

end Autonomix
